import Mathlib

/-!
Verification of the Annotation Compositor of the EC-Plugins twoslash plugin.

The definitions below are a shallow embedding of the TypeScript sources:
* marker regexes and line classifiers (`src/.../regex.ts`, `cleanTSFlags`,
  `cleanTwoSlashFlags`, `processCutOffPoints`),
* the code-block model (lines carrying text and an attached annotation
  list, mirroring the `ExpressiveCodeBlock` operations `getLine`,
  `editText`, `deleteLine`, `deleteLines`, `addAnnotation`,
  `deleteAnnotation` that the plugin uses),
* the `preprocessCode` hook of the current plugin (reconciliation of the
  block with the twoslash output, then the error / query / highlight /
  hover / completion / custom-tag passes),
* the helpers `compareNodes`, `processCompletion`,
  `removeHoverFromCompletions`, `checkForCustomTagsAndMerge`.

Render-only payloads (hast nodes, icons' svg bodies, severity labels,
docs markdown) are irrelevant to the verified properties and are either
omitted or represented by their keys.
-/

namespace ECTwoslash

/-- Characters matched by the JavaScript regex class for whitespace.
Scanner inputs are single lines (the code split on newline), so the
newline member is only relevant for degenerate inputs. -/
def isWS (c : Char) : Bool :=
  [' ', '\t', '\n', '\r', '\x0b', '\x0c', '\u00A0', '\u1680',
   '\u2000', '\u2001', '\u2002', '\u2003', '\u2004', '\u2005', '\u2006',
   '\u2007', '\u2008', '\u2009', '\u200A', '\u2028', '\u2029', '\u202F',
   '\u205F', '\u3000', '\uFEFF'].contains c

/-- Greedy consumption of leading whitespace, as the anchored greedy
whitespace groups of the marker regexes do. -/
def dropWS (cs : List Char) : List Char := cs.dropWhile isWS

/-- A character list consisting only of whitespace. -/
def isAllWS (cs : List Char) : Bool := cs.all isWS

/-- Common front of every comment-marker regex: optional whitespace, the
two comment slashes, optional whitespace.  Returns the remaining
characters, or none if the line does not begin with a comment. -/
def afterSlashes (cs : List Char) : Option (List Char) :=
  match dropWS cs with
  | '/' :: '/' :: rest => some (dropWS rest)
  | _ => none

/-- A whole-line comment marker: comment opener, the literal marker
text, then only trailing whitespace.  Models the anchored regexes of the
cut markers. -/
def matchLit (lit : List Char) (cs : List Char) : Bool :=
  match afterSlashes cs with
  | some r => (r.take lit.length == lit) && isAllWS (r.drop lit.length)
  | none => false

/-- The cut-before marker regex: the literal cut marker, with the
cut-before alias treated identically. -/
def reCutBefore (line : String) : Bool :=
  matchLit "---cut-before---".toList line.toList ||
    matchLit "---cut---".toList line.toList

/-- The cut-after marker regex. -/
def reCutAfter (line : String) : Bool :=
  matchLit "---cut-after---".toList line.toList

/-- The cut-start marker regex. -/
def reCutStart (line : String) : Bool :=
  matchLit "---cut-start---".toList line.toList

/-- The cut-end marker regex. -/
def reCutEnd (line : String) : Bool :=
  matchLit "---cut-end---".toList line.toList

/-- The optional tail of a query or completion marker: nothing, or a
space followed by arbitrary characters. -/
def tailOk (cs : List Char) : Bool := cs.isEmpty || cs.head? == some ' '

/-- The query and completion marker regex: a comment whose body is a
caret followed by a question mark, a pipe, or further carets, optionally
followed by a space and arbitrary text. -/
def reAnnonateMarkers (line : String) : Bool :=
  match afterSlashes line.toList with
  | some ('^' :: t) =>
    match t with
    | '?' :: t2 => tailOk t2
    | '|' :: t2 => tailOk t2
    | '^' :: _ => tailOk (t.dropWhile (fun c => c == '^'))
    | _ => false
  | _ => false

/-- The compiler-flag line test of the scanner, a literal prefix check
on the raw line. -/
def isTSFlagLine (line : String) : Bool :=
  line.toList.take 4 == "// @".toList

/-- Indices of compiler-flag lines. -/
def cleanTSFlags (code : List String) : List Nat :=
  code.enum.filterMap (fun p => if isTSFlagLine p.2 then some p.1 else none)

/-- Indices of query and completion marker lines. -/
def cleanTwoSlashFlags (code : List String) : List Nat :=
  code.enum.filterMap (fun p => if reAnnonateMarkers p.2 then some p.1 else none)

/-- Element of a list at a position, the lookup behind the block's
getLine operation. -/
def listAt {α : Type} : List α → Nat → Option α
  | [], _ => none
  | a :: _, 0 => some a
  | _ :: l, n + 1 => listAt l n

/-- First index satisfying a predicate, as the JavaScript findIndex
returns (none models the minus-one result). -/
def findIndexJS {α : Type} (p : α → Bool) : List α → Option Nat
  | [] => none
  | a :: l => if p a then some 0 else (findIndexJS p l).map (· + 1)

/-- First index at or after a start position satisfying a predicate;
models findIndex with an index lower-bound conjunct. -/
def findIdxFrom (p : String → Bool) (code : List String) (start : Nat) :
    Option Nat :=
  (findIndexJS p (code.drop start)).map (· + start)

/-- A matched cut-start, cut-end pair of line indices.  The source field
named end is called stop here because end is a Lean keyword. -/
structure CutSection where
  start : Nat
  stop : Nat
  deriving DecidableEq

/-- The scanning loop of processCutOffPoints: repeatedly find the next
cut-start at or after the cursor and the next cut-end strictly after it;
record the pair and move the cursor past the end, or stop.  The fuel
argument bounds the iteration count; the cursor strictly increases each
round, so one unit of fuel per line plus one is always enough. -/
def cutSectionsGo (code : List String) : Nat → Nat → List CutSection
  | 0, _ => []
  | fuel + 1, currentIndex =>
    if currentIndex < code.length then
      match findIdxFrom reCutStart code currentIndex with
      | some s =>
        match findIdxFrom reCutEnd code (s + 1) with
        | some e => ⟨s, e⟩ :: cutSectionsGo code fuel (e + 1)
        | none => []
      | none => []
    else []

/-- All matched interior cut sections of a source, in scan order. -/
def cutSections (code : List String) : List CutSection :=
  cutSectionsGo code (code.length + 1) 0

/-- The counter helper: the inclusive integer range from start to stop. -/
def counter (s e : Nat) : List Nat := List.range' s (e + 1 - s)

/-- The set of line indices processCutOffPoints marks for deletion:
everything up to the first cut-before marker, everything from the first
cut-after marker on, and every matched interior section. -/
def processCutOffPointsLines (code : List String) : List Nat :=
  (match findIndexJS reCutBefore code with
   | some k => counter 0 k
   | none => []) ++
  (match findIndexJS reCutAfter code with
   | some k => counter k (code.length - 1)
   | none => []) ++
  (cutSections code).foldr (fun s acc => counter s.start s.stop ++ acc) []

/-- Single-pass batch deletion of a set of current line indices, the
deleteLines operation of the host document model. -/
def deleteLinesGo {α : Type} (idxs : List Nat) : Nat → List α → List α
  | _, [] => []
  | i, a :: l =>
    if idxs.contains i then deleteLinesGo idxs (i + 1) l
    else a :: deleteLinesGo idxs (i + 1) l

/-- Batch deletion of the given line indices. -/
def deleteLines {α : Type} (idxs : List Nat) (b : List α) : List α :=
  deleteLinesGo idxs 0 b

/-- processCutOffPoints: compute the lines to cut and delete them in one
batch (no call is made when the set is empty). -/
def processCutOffPoints (code : List String) : List String :=
  let linesToCut := processCutOffPointsLines code
  if linesToCut.isEmpty then code else deleteLines linesToCut code

/-- JavaScript string split on a single-character separator. -/
def splitOnChar (sep : Char) : List Char → List (List Char)
  | [] => [[]]
  | c :: rest =>
    if c = sep then [] :: splitOnChar sep rest
    else
      match splitOnChar sep rest with
      | [] => [[c]]
      | l :: ls => (c :: l) :: ls

/-- JavaScript split of a string on a one-character separator. -/
def jsSplit (sep : Char) (s : String) : List String :=
  (splitOnChar sep s.toList).map (fun l => String.mk l)

/-- splitCodeToLines: the code split on newline, each line paired with
its index. -/
def splitCodeToLines (code : String) : List (Nat × String) :=
  (jsSplit '\n' code).enum

/-- The positional payload shared by the twoslash hover, query and
error nodes: line, absolute start offset, column, span length and the
node text.  Render-only fields (docs, jsdoc tags, severity level) are
omitted; none of the verified logic reads them. -/
structure NodeData where
  line : Nat
  start : Nat
  character : Nat
  length : Nat
  text : String
  deriving DecidableEq

/-- The field-selection record accepted by compareNodes; an absent field
in the source object literal is a false here. -/
structure CheckFields where
  line : Bool := false
  start : Bool := false
  character : Bool := false
  length : Bool := false
  text : Bool := false

/-- compareNodes: equality of two nodes on the selected fields.  The
source skips the text check when either node is a completion; the two
call sites compare hovers against queries and errors, never against
completions, so the text check always applies here. -/
def compareNodes (n1 n2 : NodeData) (checks : CheckFields) : Bool :=
  if checks.line && n1.line != n2.line then false
  else if checks.start && n1.start != n2.start then false
  else if checks.character && n1.character != n2.character then false
  else if checks.length && n1.length != n2.length then false
  else if checks.text && n1.text != n2.text then false
  else true

/-- A raw completion candidate as twoslash reports it: name, an
optional kind and an optional comma-separated modifier string. -/
structure RawCompletionEntry where
  name : String
  kind : Option String
  kindModifiers : Option String
  deriving DecidableEq

/-- A twoslash completion node: position data plus the candidate
list. -/
structure NodeCompletionData where
  line : Nat
  character : Nat
  start : Nat
  completions : List RawCompletionEntry
  deriving DecidableEq

/-- The keys of the completionIcons record. -/
def completionIconKinds : List String :=
  ["module", "class", "method", "property", "constructor", "interface",
   "function", "string"]

/-- Lookup in the completionIcons record, the icon represented by its
key; an unknown kind yields none, as the source indexing yields an
undefined element. -/
def completionIcons (kind : String) : Option String :=
  if completionIconKinds.contains kind then some kind else none

/-- A processed completion candidate. -/
structure CompletionEntry where
  name : String
  kind : String
  icon : Option String
  isDeprecated : Bool
  deriving DecidableEq

/-- The processed completion record.  The length field is the
JavaScript difference of two numbers and may be negative, hence an
integer.  The completionsPrefix field of the newest source, a string
carried through unchanged, is omitted: no verified logic reads it. -/
structure CompletionItem where
  startCharacter : Nat
  start : Nat
  length : Int
  items : List CompletionEntry
  deriving DecidableEq

/-- The candidate mapper of processCompletion, the inline function
literal of the source: kind defaults to property when absent or empty
(the falsy cases), the deprecated flag comes from the comma-separated
modifier string, the icon from the kind. -/
def processCompletionEntry (c : RawCompletionEntry) : CompletionEntry :=
  let kind := match c.kind with
    | some k => if k == "" then "property" else k
    | none => "property"
  let isDeprecated := match c.kindModifiers with
    | some m => (jsSplit ',' m).contains "deprecated"
    | none => false
  { name := c.name, kind := kind, icon := completionIcons kind,
    isDeprecated := isDeprecated }

/-- processCompletion: map each candidate to its processed form,
truncate to the first five, and compute the visible span from the
anchor column and the cursor offset. -/
def processCompletion (completion : NodeCompletionData) : CompletionItem :=
  let items := (completion.completions.map processCompletionEntry).take 5
  { startCharacter := completion.character,
    start := completion.start,
    length := (completion.start : Int) - (completion.character : Int),
    items := items }

/-- A twoslash highlight node (position only; nothing else is read). -/
structure NodeHighlight where
  line : Nat
  character : Nat
  length : Nat
  deriving DecidableEq

/-- A twoslash custom-tag node. -/
structure NodeTag where
  line : Nat
  name : String
  text : Option String
  deriving DecidableEq

/-- An inline column range attached to an annotation. -/
structure InlineRange where
  columnStart : Nat
  columnEnd : Nat
  deriving DecidableEq

/-- The twoslash annotations the plugin attaches to lines, one
constructor per annotation class.  Hover annotations carry their inline
range explicitly because removeHoverFromCompletions mutates it. -/
inductive Ann where
  | errorUnderline (err : NodeData)
  | errorBox (err : NodeData)
  | staticAnn (node : NodeData)
  | hoverAnn (node : NodeData) (range : InlineRange)
  | highlightAnn (hl : NodeHighlight)
  | completionAnn (item : CompletionItem) (node : NodeCompletionData)
  | customTag (tag : NodeTag)
  deriving DecidableEq

/-- A line of the host document: its text and its attached annotation
list, in attachment order. -/
structure Line where
  text : String
  anns : List Ann
  deriving DecidableEq

/-- The host code block: the ordered collection of its lines. -/
abbrev Block := List Line

/-- getLine: the line at an index, none when out of range (the source
getLine returns undefined there). -/
def getLine (b : Block) (i : Nat) : Option Line := listAt b i

/-- Replace the line at an index by a function of itself; out-of-range
indices leave the block unchanged. -/
def modifyLine : Block → Nat → (Line → Line) → Block
  | [], _, _ => []
  | l :: ls, 0, f => f l :: ls
  | l :: ls, i + 1, f => l :: modifyLine ls i f

/-- deleteLine: remove the single line at an index. -/
def deleteLineAt {α : Type} : List α → Nat → List α
  | [], _ => []
  | _ :: ls, 0 => ls
  | l :: ls, i + 1 => l :: deleteLineAt ls i

/-- The annotations currently attached to a line (empty when the line
does not exist). -/
def annsAt (b : Block) (i : Nat) : List Ann :=
  ((getLine b i).map Line.anns).getD []

/-- The trailing-surplus deletion loop of the reconciler: perform the
given number of single-line deletions, each at the fixed index of the
first surplus line, and record the index targeted by each deletion. -/
def deleteSurplus (n : Nat) : Nat → Block → Block × List Nat
  | 0, b => (b, [])
  | k + 1, b =>
    let r := deleteSurplus n k (deleteLineAt b n)
    (r.1, n :: r.2)

/-- The reconciliation step of preprocessCode (also the body of
replaceECBlockWithTwoslashBlock): overwrite each surviving line's text
with the corresponding rewritten line, then delete the surplus trailing
lines one at a time, each deletion targeting the index equal to the
rewritten line count.  The second component records the index targeted
by each single-line deletion, in order; the source performs these
deletions directly against the block.  The source computes the current
line count by splitting the block's own code, which equals the block's
length. -/
def editTextLines (ts : List (Nat × String)) (b : Block) : Block :=
  ts.foldl (fun acc p =>
    if p.1 < acc.length then
      modifyLine acc p.1 (fun ln => { ln with text := p.2 })
    else acc) b

/-- See the doc comment of reconcile; this is its in-place text
overwrite loop, factored out. -/
def reconcile (twoslashCode : String) (b : Block) : Block × List Nat :=
  let ecLen := b.length
  let twoslashCodeBlock := splitCodeToLines twoslashCode
  let b1 := editTextLines twoslashCodeBlock b
  if twoslashCodeBlock.length < ecLen then
    deleteSurplus twoslashCodeBlock.length (ecLen - twoslashCodeBlock.length) b1
  else (b1, [])

/-- The common shape of the annotation-adding passes of preprocessCode:
for each fact, if it is kept, look its line up, and when the line
exists append the fact's annotations to that line. -/
def annPass {F : Type} (lineOf : F → Nat) (keep : F → Bool)
    (annsOf : F → List Ann) (facts : List F) (b : Block) : Block :=
  facts.foldl (fun acc x =>
    if keep x then
      if lineOf x < acc.length then
        modifyLine acc (lineOf x) (fun ln => { ln with anns := ln.anns ++ annsOf x })
      else acc
    else acc) b

/-- The error pass: for each error on an existing line, attach the
underline annotation then the box annotation. -/
def addErrorAnns (errors : List NodeData) (b : Block) : Block :=
  annPass (fun e => e.line) (fun _ => true)
    (fun e => [Ann.errorUnderline e, Ann.errorBox e]) errors b

/-- The query pass: for each query on an existing line, attach a static
annotation. -/
def addStaticAnns (queries : List NodeData) (b : Block) : Block :=
  annPass (fun q => q.line) (fun _ => true) (fun q => [Ann.staticAnn q]) queries b

/-- The highlight pass. -/
def addHighlightAnns (hls : List NodeHighlight) (b : Block) : Block :=
  annPass (fun h => h.line) (fun _ => true) (fun h => [Ann.highlightAnn h]) hls b

/-- The hover skip test of preprocessCode: a hover already represented
by a query with the same line and text, or by an error with the same
line, start, length and character, is not attached. -/
def hoverKeep (queries errors : List NodeData) (node : NodeData) : Bool :=
  !((queries.find? (fun q =>
      compareNodes q node { line := true, text := true })).isSome ||
    (errors.find? (fun e =>
      compareNodes e node { line := true, start := true, length := true,
                            character := true })).isSome)

/-- The inline range the hover annotation constructor computes from the
hover node. -/
def hoverRange (node : NodeData) : InlineRange :=
  { columnStart := node.character, columnEnd := node.character + node.length }

/-- The hover pass: skip hovers matching a query or an error, attach
the rest to their lines. -/
def addHoverAnns (queries errors hovers : List NodeData) (b : Block) : Block :=
  annPass (fun h => h.line) (hoverKeep queries errors)
    (fun h => [Ann.hoverAnn h (hoverRange h)]) hovers b

/-- The inline-range adjustment of removeHoverFromCompletions: when the
completion's anchor column falls inside the hover's inline range, the
hover's start column is set to the completion's anchor column. -/
def adjustHoverRange (p : CompletionItem) (r : InlineRange) : InlineRange :=
  if r.columnStart ≤ p.startCharacter ∧ p.startCharacter ≤ r.columnEnd then
    { r with columnStart := p.startCharacter }
  else r

/-- removeHoverFromCompletions: walk the line's annotations; for each
hover annotation, first adjust its inline range against the processed
completion, then delete it when its node's start equals the
completion's anchor column and its length equals the completion's
span length.  Other annotations are untouched. -/
def removeHoverFromCompletions (p : CompletionItem) (anns : List Ann) : List Ann :=
  anns.filterMap (fun a =>
    match a with
    | Ann.hoverAnn node r =>
      let r2 := adjustHoverRange p r
      if node.start = p.startCharacter ∧ (node.length : Int) = p.length then none
      else some (Ann.hoverAnn node r2)
    | other => some other)

/-- The completion pass: process each completion, and on its line first
run removeHoverFromCompletions and then attach the completion
annotation. -/
def addCompletionAnns (completions : List NodeCompletionData) (b : Block) : Block :=
  completions.foldl (fun acc node =>
    let p := processCompletion node
    if node.line < acc.length then
      modifyLine acc node.line (fun ln =>
        { ln with anns := removeHoverFromCompletions p ln.anns ++
            [Ann.completionAnn p node] })
    else acc) b

/-- The custom-tag pass: attach each tag whose declared line exists;
tags whose line does not resolve are skipped without diagnostic. -/
def addTagAnns (tags : List NodeTag) (b : Block) : Block :=
  annPass (fun t => t.line) (fun _ => true) (fun t => [Ann.customTag t]) tags b

/-- The parts of the twoslash result the preprocessCode hook reads. -/
structure TwoslashReturn where
  code : String
  errors : List NodeData
  queries : List NodeData
  highlights : List NodeHighlight
  hovers : List NodeData
  completions : List NodeCompletionData
  tags : List NodeTag

/-- The preprocessCode hook after the twoslash run: reconcile the block
with the rewritten code, then attach error, static (query), highlight,
hover, completion and custom-tag annotations, in that order. -/
def preprocessCode (tw : TwoslashReturn) (b : Block) : Block :=
  let b1 := (reconcile tw.code b).1
  let b2 := addErrorAnns tw.errors b1
  let b3 := addStaticAnns tw.queries b2
  let b4 := addHighlightAnns tw.highlights b3
  let b5 := addHoverAnns tw.queries tw.errors tw.hovers b4
  let b6 := addCompletionAnns tw.completions b5
  addTagAnns tw.tags b6

/-- The default custom tags. -/
def twoslashDefaultTags : List String := ["annotate", "log", "warn", "error"]

/-- The twoslash options fields checkForCustomTagsAndMerge reads and
writes. -/
structure TwoslashOpts where
  customTags : Option (List String)

/-- checkForCustomTagsAndMerge: start from the default tags and append
each caller tag not already present. -/
def checkForCustomTagsAndMerge (o : Option TwoslashOpts) : TwoslashOpts :=
  let customTags := (o.bind TwoslashOpts.customTags).getD []
  let allTags := customTags.foldl (fun acc tag =>
    if acc.contains tag then acc else acc ++ [tag]) twoslashDefaultTags
  { customTags := some allTags }

/-- Appended lists, the concatenation of a function's images; used to
state the per-pass annotation contributions. -/
def catMap {α β : Type} (f : α → List β) : List α → List β
  | [] => []
  | a :: l => f a ++ catMap f l

/-- Whole-line shape of a cut-marker match: only whitespace, the
comment opener, whitespace, the literal marker text and trailing
whitespace; nothing else on the line. -/
def commentMarkerShape (core : List Char) (line : String) : Prop :=
  ∃ w1 w2 w3, isAllWS w1 = true ∧ isAllWS w2 = true ∧ isAllWS w3 = true ∧
    line.toList = w1 ++ ['/', '/'] ++ w2 ++ core ++ w3

/-- Whole-line shape of a query or completion marker: whitespace, the
comment opener, whitespace, a caret, a selector (question mark, pipe,
or one or more further carets) and an optional tail opened by a
space. -/
def annotateShape (line : String) : Prop :=
  ∃ w1 w2 sel tl, isAllWS w1 = true ∧ isAllWS w2 = true ∧
    (sel = ['?'] ∨ sel = ['|'] ∨ (sel ≠ [] ∧ sel.all (fun c => c == '^') = true)) ∧
    (tl = [] ∨ tl.head? = some ' ') ∧
    line.toList = w1 ++ ['/', '/'] ++ w2 ++ '^' :: (sel ++ tl)

/-- Whole-line shape of a compiler-flag line: the line is the flag
comment from its first column, nothing before it. -/
def tsFlagShape (line : String) : Prop :=
  ∃ rest, line.toList = '/' :: '/' :: ' ' :: '@' :: rest

/-- How many of the six marker kinds claim a line. -/
def markerKindCount (line : String) : Nat :=
  [isTSFlagLine line, reAnnonateMarkers line, reCutBefore line, reCutAfter line,
   reCutStart line, reCutEnd line].countP id

/-- The hover annotations carrying a given hover node, in any inline
range state. -/
def isHoverOf (h : NodeData) : Ann → Bool := fun a =>
  match a with
  | Ann.hoverAnn n _ => n == h
  | _ => false

/-- The static annotations whose query matches a node on line and
text. -/
def isStaticMatching (h : NodeData) : Ann → Bool := fun a =>
  match a with
  | Ann.staticAnn q => compareNodes q h { line := true, text := true }
  | _ => false


/-! ### Toolkit lemmas about the block model -/

theorem length_modifyLine (b : Block) (i : Nat) (f : Line → Line) :
    (modifyLine b i f).length = b.length := by
  induction b generalizing i with
  | nil => rfl
  | cons l ls ih =>
    cases i with
    | zero => rfl
    | succ n => simp [modifyLine, ih n]

theorem getLine_modifyLine_self (b : Block) (j : Nat) (f : Line → Line) :
    getLine (modifyLine b j f) j = (getLine b j).map f := by
  induction b generalizing j with
  | nil => rfl
  | cons l ls ih =>
    cases j with
    | zero => rfl
    | succ m => simpa [getLine, modifyLine, listAt] using ih m

theorem getLine_modifyLine_ne (b : Block) (i j : Nat) (f : Line → Line)
    (h : i ≠ j) : getLine (modifyLine b j f) i = getLine b i := by
  induction b generalizing i j with
  | nil => rfl
  | cons l ls ih =>
    cases j with
    | zero =>
      cases i with
      | zero => exact absurd rfl h
      | succ n => rfl
    | succ m =>
      cases i with
      | zero => rfl
      | succ n =>
        have : n ≠ m := fun hn => h (by simp [hn])
        simpa [getLine, modifyLine, listAt] using ih n m this

theorem getLine_eq_none_iff (b : Block) (i : Nat) :
    getLine b i = none ↔ b.length ≤ i := by
  induction b generalizing i with
  | nil => simp [getLine, listAt]
  | cons l ls ih =>
    cases i with
    | zero => simp [getLine, listAt]
    | succ n => simpa [getLine, listAt, Nat.succ_le_succ_iff] using ih n

theorem getLine_mem (b : Block) (i : Nat) (ln : Line)
    (h : getLine b i = some ln) : ln ∈ b := by
  induction b generalizing i with
  | nil => simp [getLine, listAt] at h
  | cons l ls ih =>
    cases i with
    | zero =>
      simp [getLine, listAt] at h
      simp [h]
    | succ n =>
      exact List.mem_cons_of_mem _ (ih n h)

theorem getLine_exists_of_lt (b : Block) (i : Nat) (h : i < b.length) :
    ∃ ln, getLine b i = some ln := by
  cases hg : getLine b i with
  | none => exact absurd ((getLine_eq_none_iff b i).mp hg) (Nat.not_le_of_lt h)
  | some ln => exact ⟨ln, rfl⟩

theorem annsAt_modifyLine_append (b : Block) (j : Nat) (A : List Ann) (i : Nat) :
    annsAt (modifyLine b j (fun ln => { ln with anns := ln.anns ++ A })) i =
      annsAt b i ++ (if i = j ∧ j < b.length then A else []) := by
  by_cases hij : i = j
  · subst hij
    by_cases hlt : i < b.length
    · obtain ⟨ln, hln⟩ := getLine_exists_of_lt b i hlt
      simp [annsAt, getLine_modifyLine_self, hln, hlt]
    · have : getLine b i = none :=
        (getLine_eq_none_iff b i).mpr (Nat.le_of_not_lt hlt)
      simp [annsAt, getLine_modifyLine_self, this, hlt]
  · simp [annsAt, getLine_modifyLine_ne b i j _ hij, hij]

theorem annsAt_modifyLine_keep (b : Block) (j : Nat) (f : Line → Line)
    (hf : ∀ ln, (f ln).anns = ln.anns) (i : Nat) :
    annsAt (modifyLine b j f) i = annsAt b i := by
  by_cases hij : i = j
  · subst hij
    cases hln : getLine b i with
    | none => simp [annsAt, getLine_modifyLine_self, hln]
    | some ln => simp [annsAt, getLine_modifyLine_self, hln, hf]
  · simp [annsAt, getLine_modifyLine_ne b i j _ hij]

theorem annsAt_of_forall_nil (b : Block) (hb : ∀ ln ∈ b, ln.anns = [])
    (i : Nat) : annsAt b i = [] := by
  cases hln : getLine b i with
  | none => simp [annsAt, hln]
  | some ln => simp [annsAt, hln, hb ln (getLine_mem b i ln hln)]

theorem mem_deleteLineAt {α : Type} (l : List α) (n : Nat) (a : α)
    (h : a ∈ deleteLineAt l n) : a ∈ l := by
  induction l generalizing n with
  | nil => simp [deleteLineAt] at h
  | cons x xs ih =>
    cases n with
    | zero => exact List.mem_cons_of_mem _ h
    | succ m =>
      rcases (List.mem_cons).mp h with h1 | h2
      · simp [h1]
      · exact List.mem_cons_of_mem _ (ih m h2)

theorem length_deleteLineAt {α : Type} (l : List α) (n : Nat)
    (h : n < l.length) : (deleteLineAt l n).length = l.length - 1 := by
  induction l generalizing n with
  | nil => simp at h
  | cons x xs ih =>
    cases n with
    | zero => simp [deleteLineAt]
    | succ m =>
      have hm : m < xs.length := Nat.lt_of_succ_lt_succ h
      simp [deleteLineAt, ih m hm]
      omega

theorem mem_catMap {α β : Type} (f : α → List β) (l : List α) (b : β) :
    b ∈ catMap f l ↔ ∃ a ∈ l, b ∈ f a := by
  induction l with
  | nil => simp [catMap]
  | cons x xs ih => simp [catMap, ih]

theorem countP_catMap {α : Type} (p : Ann → Bool) (f : α → List Ann) (l : List α) :
    (catMap f l).countP p = (l.map (fun a => (f a).countP p)).sum := by
  induction l with
  | nil => simp [catMap]
  | cons x xs ih => simp [catMap, List.countP_append, ih]

/-! ### The annotation-pass characterization -/

theorem annPass_nil {F : Type} (lineOf : F → Nat) (keep : F → Bool)
    (annsOf : F → List Ann) (b : Block) :
    annPass lineOf keep annsOf [] b = b := rfl

theorem annPass_cons {F : Type} (lineOf : F → Nat) (keep : F → Bool)
    (annsOf : F → List Ann) (x : F) (xs : List F) (b : Block) :
    annPass lineOf keep annsOf (x :: xs) b =
      annPass lineOf keep annsOf xs
        (if keep x then
          if lineOf x < b.length then
            modifyLine b (lineOf x)
              (fun ln => { ln with anns := ln.anns ++ annsOf x })
          else b
        else b) := rfl

theorem length_annPass {F : Type} (lineOf : F → Nat) (keep : F → Bool)
    (annsOf : F → List Ann) (facts : List F) (b : Block) :
    (annPass lineOf keep annsOf facts b).length = b.length := by
  induction facts generalizing b with
  | nil => rfl
  | cons x xs ih =>
    rw [annPass_cons, ih]
    split
    · split
      · exact length_modifyLine ..
      · rfl
    · rfl

theorem annsAt_annPass {F : Type} (lineOf : F → Nat) (keep : F → Bool)
    (annsOf : F → List Ann) (facts : List F) (b : Block) (i : Nat) :
    annsAt (annPass lineOf keep annsOf facts b) i =
      annsAt b i ++ catMap (fun x =>
        if keep x = true ∧ i = lineOf x ∧ lineOf x < b.length then annsOf x
        else []) facts := by
  induction facts generalizing b with
  | nil => simp [annPass_nil, catMap]
  | cons x xs ih =>
    rw [annPass_cons]
    by_cases hk : keep x = true
    · by_cases hl : lineOf x < b.length
      · rw [if_pos hk, if_pos hl, ih, length_modifyLine,
          annsAt_modifyLine_append, List.append_assoc, catMap]
        congr 2
        by_cases hi : i = lineOf x <;> simp [hi, hk, hl]
      · rw [if_pos hk, if_neg hl, ih, catMap, if_neg (by simp [hl]), List.nil_append]
    · rw [if_neg hk, ih, catMap, if_neg (by simp [hk]), List.nil_append]

/-! ### Reconciliation lemmas -/

theorem editTextLines_nil (b : Block) : editTextLines [] b = b := rfl

theorem editTextLines_cons (x : Nat × String) (xs : List (Nat × String))
    (b : Block) :
    editTextLines (x :: xs) b =
      editTextLines xs
        (if x.1 < b.length then
          modifyLine b x.1 (fun ln => { ln with text := x.2 })
        else b) := rfl

theorem length_editTextLines (ts : List (Nat × String)) (b : Block) :
    (editTextLines ts b).length = b.length := by
  induction ts generalizing b with
  | nil => rfl
  | cons x xs ih =>
    rw [editTextLines_cons, ih]
    by_cases h : x.1 < b.length
    · simp [h, length_modifyLine]
    · simp [h]

theorem mem_modifyLine (b : Block) (j : Nat) (f : Line → Line) (ln : Line)
    (h : ln ∈ modifyLine b j f) : ln ∈ b ∨ ∃ ln0 ∈ b, ln = f ln0 := by
  induction b generalizing j with
  | nil => simp [modifyLine] at h
  | cons l ls ih =>
    cases j with
    | zero =>
      rcases (List.mem_cons).mp h with h1 | h2
      · exact Or.inr ⟨l, List.mem_cons_self .., h1⟩
      · exact Or.inl (List.mem_cons_of_mem _ h2)
    | succ m =>
      rcases (List.mem_cons).mp h with h1 | h2
      · exact Or.inl (by simp [h1])
      · rcases ih m h2 with h3 | ⟨ln0, hln0, hf⟩
        · exact Or.inl (List.mem_cons_of_mem _ h3)
        · exact Or.inr ⟨ln0, List.mem_cons_of_mem _ hln0, hf⟩

theorem editTextLines_anns_nil (ts : List (Nat × String)) (b : Block)
    (hb : ∀ ln ∈ b, ln.anns = []) :
    ∀ ln ∈ editTextLines ts b, ln.anns = [] := by
  induction ts generalizing b with
  | nil => exact hb
  | cons x xs ih =>
    rw [editTextLines_cons]
    apply ih
    by_cases h : x.1 < b.length
    · rw [if_pos h]
      intro ln hln
      rcases mem_modifyLine b x.1 _ ln hln with h1 | ⟨ln0, hln0, hf⟩
      · exact hb ln h1
      · rw [hf]
        exact hb ln0 hln0
    · rw [if_neg h]
      exact hb

theorem mem_deleteSurplus (n k : Nat) (b : Block) (ln : Line)
    (h : ln ∈ (deleteSurplus n k b).1) : ln ∈ b := by
  induction k generalizing b with
  | zero => exact h
  | succ m ih =>
    exact mem_deleteLineAt b n ln (ih (deleteLineAt b n) h)

theorem deleteSurplus_spec (n k : Nat) (b : Block) (hb : b.length = n + k) :
    (deleteSurplus n k b).1.length = n ∧
      (deleteSurplus n k b).2 = List.replicate k n := by
  induction k generalizing b with
  | zero => simpa [deleteSurplus] using hb
  | succ m ih =>
    have hn : n < b.length := by omega
    have hlen : (deleteLineAt b n).length = n + m := by
      rw [length_deleteLineAt b n hn]
      omega
    obtain ⟨h1, h2⟩ := ih (deleteLineAt b n) hlen
    exact ⟨h1, by simp [deleteSurplus, h2, List.replicate_succ]⟩

theorem reconcile_eq_of_lt (code : String) (b : Block)
    (h : (splitCodeToLines code).length < b.length) :
    reconcile code b =
      deleteSurplus (splitCodeToLines code).length
        (b.length - (splitCodeToLines code).length)
        (editTextLines (splitCodeToLines code) b) := by
  simp [reconcile, h]

theorem reconcile_eq_of_ge (code : String) (b : Block)
    (h : ¬ (splitCodeToLines code).length < b.length) :
    reconcile code b = (editTextLines (splitCodeToLines code) b, []) := by
  simp [reconcile, h]

theorem reconcile_spec (code : String) (b : Block)
    (h : (splitCodeToLines code).length ≤ b.length) :
    ((reconcile code b).1).length = (splitCodeToLines code).length ∧
      (reconcile code b).2 =
        List.replicate (b.length - (splitCodeToLines code).length)
          (splitCodeToLines code).length := by
  by_cases hlt : (splitCodeToLines code).length < b.length
  · rw [reconcile_eq_of_lt code b hlt]
    apply deleteSurplus_spec
    rw [length_editTextLines]
    omega
  · have heq : (splitCodeToLines code).length = b.length :=
      Nat.le_antisymm h (Nat.le_of_not_lt hlt)
    rw [reconcile_eq_of_ge code b hlt]
    constructor
    · rw [length_editTextLines, heq]
    · rw [heq]
      simp

theorem reconcile_anns_nil (code : String) (b : Block)
    (hb : ∀ ln ∈ b, ln.anns = []) :
    ∀ i, annsAt ((reconcile code b).1) i = [] := by
  intro i
  apply annsAt_of_forall_nil
  intro ln hln
  by_cases hlt : (splitCodeToLines code).length < b.length
  · rw [reconcile_eq_of_lt code b hlt] at hln
    exact editTextLines_anns_nil _ b hb ln (mem_deleteSurplus _ _ _ ln hln)
  · rw [reconcile_eq_of_ge code b hlt] at hln
    exact editTextLines_anns_nil _ b hb ln hln

/-! ### Completion-pass lemmas -/

theorem removeHover_nil (q : CompletionItem) :
    removeHoverFromCompletions q [] = [] := rfl

theorem removeHover_cons_hover (q : CompletionItem) (n : NodeData)
    (r : InlineRange) (l : List Ann) :
    removeHoverFromCompletions q (Ann.hoverAnn n r :: l) =
      (if n.start = q.startCharacter ∧ (n.length : Int) = q.length then
        removeHoverFromCompletions q l
      else Ann.hoverAnn n (adjustHoverRange q r) :: removeHoverFromCompletions q l) := by
  by_cases hd : n.start = q.startCharacter ∧ (n.length : Int) = q.length <;>
    simp [removeHoverFromCompletions, List.filterMap_cons, hd]

theorem removeHover_cons_other (q : CompletionItem) (a : Ann) (l : List Ann)
    (ha : ∀ n r, a ≠ Ann.hoverAnn n r) :
    removeHoverFromCompletions q (a :: l) = a :: removeHoverFromCompletions q l := by
  cases a with
  | hoverAnn n r => exact absurd rfl (ha n r)
  | errorUnderline e => simp [removeHoverFromCompletions, List.filterMap_cons]
  | errorBox e => simp [removeHoverFromCompletions, List.filterMap_cons]
  | staticAnn nd => simp [removeHoverFromCompletions, List.filterMap_cons]
  | highlightAnn hl => simp [removeHoverFromCompletions, List.filterMap_cons]
  | completionAnn it nd => simp [removeHoverFromCompletions, List.filterMap_cons]
  | customTag t => simp [removeHoverFromCompletions, List.filterMap_cons]

theorem countP_removeHover (p : Ann → Bool)
    (h1 : ∀ n r, p (Ann.hoverAnn n r) = false) (q : CompletionItem)
    (anns : List Ann) :
    (removeHoverFromCompletions q anns).countP p = anns.countP p := by
  induction anns with
  | nil => rfl
  | cons a l ih =>
    by_cases hhov : ∃ n r, a = Ann.hoverAnn n r
    · obtain ⟨n, r, rfl⟩ := hhov
      rw [removeHover_cons_hover]
      by_cases hd : n.start = q.startCharacter ∧ (n.length : Int) = q.length
      · rw [if_pos hd, ih, List.countP_cons]
        simp [h1]
      · rw [if_neg hd, List.countP_cons, List.countP_cons, ih]
        simp [h1]
    · push_neg at hhov
      rw [removeHover_cons_other q a l hhov, List.countP_cons, List.countP_cons, ih]

theorem countP_removeHover_zero (p : Ann → Bool)
    (hr : ∀ n r r2, p (Ann.hoverAnn n r) = p (Ann.hoverAnn n r2))
    (q : CompletionItem) (anns : List Ann) (h0 : anns.countP p = 0) :
    (removeHoverFromCompletions q anns).countP p = 0 := by
  induction anns with
  | nil => rfl
  | cons a l ih =>
    rw [List.countP_cons] at h0
    have h0l : l.countP p = 0 := by omega
    have h0a : p a = false := by
      by_cases hpa : p a = true
      · simp [hpa] at h0
      · simpa using hpa
    by_cases hhov : ∃ n r, a = Ann.hoverAnn n r
    · obtain ⟨n, r, rfl⟩ := hhov
      rw [removeHover_cons_hover]
      by_cases hd : n.start = q.startCharacter ∧ (n.length : Int) = q.length
      · rw [if_pos hd]
        exact ih h0l
      · rw [if_neg hd, List.countP_cons, ih h0l, hr n (adjustHoverRange q r) r, h0a]
        simp
    · push_neg at hhov
      rw [removeHover_cons_other q a l hhov, List.countP_cons, ih h0l, h0a]
      simp

theorem mem_removeHover (q : CompletionItem) (anns : List Ann) (a : Ann)
    (ha : ∀ n r, a ≠ Ann.hoverAnn n r) (h : a ∈ anns) :
    a ∈ removeHoverFromCompletions q anns := by
  induction anns with
  | nil => simp at h
  | cons x l ih =>
    by_cases hhov : ∃ n r, x = Ann.hoverAnn n r
    · obtain ⟨n, r, rfl⟩ := hhov
      have hx : a ∈ l := by
        rcases (List.mem_cons).mp h with h1 | h2
        · exact absurd h1 (ha n r)
        · exact h2
      rw [removeHover_cons_hover]
      by_cases hd : n.start = q.startCharacter ∧ (n.length : Int) = q.length
      · rw [if_pos hd]
        exact ih hx
      · rw [if_neg hd]
        exact List.mem_cons_of_mem _ (ih hx)
    · push_neg at hhov
      rw [removeHover_cons_other q x l hhov]
      rcases (List.mem_cons).mp h with h1 | h2
      · simp [h1]
      · exact List.mem_cons_of_mem _ (ih h2)

theorem annsAt_modifyLine_anns (b : Block) (j : Nat) (g : List Ann → List Ann)
    (i : Nat) :
    annsAt (modifyLine b j (fun ln => { ln with anns := g ln.anns })) i =
      if i = j ∧ j < b.length then g (annsAt b i) else annsAt b i := by
  by_cases hij : i = j
  · subst hij
    by_cases hlt : i < b.length
    · obtain ⟨ln, hln⟩ := getLine_exists_of_lt b i hlt
      simp [annsAt, getLine_modifyLine_self, hln, hlt]
    · have hnone : getLine b i = none :=
        (getLine_eq_none_iff b i).mpr (Nat.le_of_not_lt hlt)
      simp [annsAt, getLine_modifyLine_self, hnone, hlt]
  · simp [annsAt, getLine_modifyLine_ne b i j _ hij, hij]

theorem annsAt_modifyLine_remove (b : Block) (j : Nat) (q : CompletionItem)
    (c : Ann) (i : Nat) :
    annsAt (modifyLine b j (fun ln =>
        { ln with anns := removeHoverFromCompletions q ln.anns ++ [c] })) i =
      if i = j ∧ j < b.length then
        removeHoverFromCompletions q (annsAt b i) ++ [c]
      else annsAt b i := by
  simpa using
    annsAt_modifyLine_anns b j (fun l => removeHoverFromCompletions q l ++ [c]) i

theorem addCompletionAnns_nil (b : Block) : addCompletionAnns [] b = b := rfl

theorem addCompletionAnns_cons (x : NodeCompletionData)
    (xs : List NodeCompletionData) (b : Block) :
    addCompletionAnns (x :: xs) b =
      addCompletionAnns xs
        (if x.line < b.length then
          modifyLine b x.line (fun ln =>
            { ln with anns :=
                removeHoverFromCompletions (processCompletion x) ln.anns ++
                  [Ann.completionAnn (processCompletion x) x] })
        else b) := rfl

theorem length_addCompletionAnns (cs : List NodeCompletionData) (b : Block) :
    (addCompletionAnns cs b).length = b.length := by
  induction cs generalizing b with
  | nil => rfl
  | cons x xs ih =>
    rw [addCompletionAnns_cons, ih]
    by_cases h : x.line < b.length
    · simp [h, length_modifyLine]
    · simp [h]

theorem countP_addCompletionAnns (p : Ann → Bool)
    (h1 : ∀ n r, p (Ann.hoverAnn n r) = false)
    (h2 : ∀ it nd, p (Ann.completionAnn it nd) = false)
    (cs : List NodeCompletionData) (b : Block) (i : Nat) :
    (annsAt (addCompletionAnns cs b) i).countP p = (annsAt b i).countP p := by
  induction cs generalizing b with
  | nil => rfl
  | cons x xs ih =>
    rw [addCompletionAnns_cons, ih]
    by_cases hl : x.line < b.length
    · rw [if_pos hl, annsAt_modifyLine_remove]
      by_cases hi : i = x.line
      · rw [if_pos ⟨hi, hl⟩, List.countP_append, countP_removeHover p h1]
        simp [h2]
      · rw [if_neg (by simp [hi])]
    · rw [if_neg hl]

theorem countP_addCompletionAnns_zero (p : Ann → Bool)
    (hr : ∀ n r r2, p (Ann.hoverAnn n r) = p (Ann.hoverAnn n r2))
    (h2 : ∀ it nd, p (Ann.completionAnn it nd) = false)
    (cs : List NodeCompletionData) (b : Block) (i : Nat)
    (h0 : (annsAt b i).countP p = 0) :
    (annsAt (addCompletionAnns cs b) i).countP p = 0 := by
  induction cs generalizing b with
  | nil => exact h0
  | cons x xs ih =>
    rw [addCompletionAnns_cons]
    apply ih
    by_cases hl : x.line < b.length
    · rw [if_pos hl, annsAt_modifyLine_remove]
      by_cases hi : i = x.line
      · rw [if_pos ⟨hi, hl⟩, List.countP_append,
          countP_removeHover_zero p hr _ _ h0]
        simp [h2]
      · rw [if_neg (by simp [hi])]
        exact h0
    · rw [if_neg hl]
      exact h0

theorem mem_addCompletionAnns (a : Ann) (ha : ∀ n r, a ≠ Ann.hoverAnn n r)
    (cs : List NodeCompletionData) (b : Block) (i : Nat)
    (h : a ∈ annsAt b i) : a ∈ annsAt (addCompletionAnns cs b) i := by
  induction cs generalizing b with
  | nil => exact h
  | cons x xs ih =>
    rw [addCompletionAnns_cons]
    apply ih
    by_cases hl : x.line < b.length
    · rw [if_pos hl, annsAt_modifyLine_remove]
      by_cases hi : i = x.line
      · rw [if_pos ⟨hi, hl⟩]
        exact List.mem_append_left _ (mem_removeHover _ _ a ha h)
      · rw [if_neg (by simp [hi])]
        exact h
    · rw [if_neg hl]
      exact h

/-! ### Pipeline length -/

theorem length_preprocessCode (tw : TwoslashReturn) (b : Block) :
    (preprocessCode tw b).length = ((reconcile tw.code b).1).length := by
  unfold preprocessCode
  simp only [addErrorAnns, addStaticAnns, addHighlightAnns, addHoverAnns,
    addTagAnns, length_annPass, length_addCompletionAnns]

/-! ### Per-pass annotation characterizations -/

theorem catMap_congr {α β : Type} (f g : α → List β) (l : List α)
    (h : ∀ a ∈ l, f a = g a) : catMap f l = catMap g l := by
  induction l with
  | nil => rfl
  | cons x xs ih =>
    rw [catMap, catMap, h x (by simp), ih (fun a ha => h a (by simp [ha]))]

theorem annsAt_addErrorAnns (errors : List NodeData) (b : Block) (i : Nat) :
    annsAt (addErrorAnns errors b) i =
      annsAt b i ++ catMap (fun e =>
        if i = e.line ∧ e.line < b.length then
          [Ann.errorUnderline e, Ann.errorBox e]
        else []) errors := by
  rw [addErrorAnns, annsAt_annPass]
  congr 1
  apply catMap_congr
  intro e _
  simp

theorem annsAt_addStaticAnns (queries : List NodeData) (b : Block) (i : Nat) :
    annsAt (addStaticAnns queries b) i =
      annsAt b i ++ catMap (fun q =>
        if i = q.line ∧ q.line < b.length then [Ann.staticAnn q] else [])
        queries := by
  rw [addStaticAnns, annsAt_annPass]
  congr 1
  apply catMap_congr
  intro q _
  simp

theorem annsAt_addHighlightAnns (hls : List NodeHighlight) (b : Block) (i : Nat) :
    annsAt (addHighlightAnns hls b) i =
      annsAt b i ++ catMap (fun x =>
        if i = x.line ∧ x.line < b.length then [Ann.highlightAnn x] else [])
        hls := by
  rw [addHighlightAnns, annsAt_annPass]
  congr 1
  apply catMap_congr
  intro x _
  simp

theorem annsAt_addTagAnns (tags : List NodeTag) (b : Block) (i : Nat) :
    annsAt (addTagAnns tags b) i =
      annsAt b i ++ catMap (fun t =>
        if i = t.line ∧ t.line < b.length then [Ann.customTag t] else [])
        tags := by
  rw [addTagAnns, annsAt_annPass]
  congr 1
  apply catMap_congr
  intro t _
  simp

theorem annsAt_addHoverAnns (queries errors hovers : List NodeData) (b : Block)
    (i : Nat) :
    annsAt (addHoverAnns queries errors hovers b) i =
      annsAt b i ++ catMap (fun x =>
        if hoverKeep queries errors x = true ∧ i = x.line ∧ x.line < b.length
        then [Ann.hoverAnn x (hoverRange x)] else []) hovers := by
  rw [addHoverAnns, annsAt_annPass]

theorem countP_catMap_zero {α : Type} (p : Ann → Bool) (f : α → List Ann)
    (l : List α) (h : ∀ x ∈ l, ∀ a ∈ f x, p a = false) :
    (catMap f l).countP p = 0 := by
  rw [List.countP_eq_zero]
  intro a ha
  obtain ⟨x, hx, hax⟩ := (mem_catMap f l a).mp ha
  simp [h x hx a hax]

/-! ### compareNodes characterizations -/

theorem compareNodes_line_text (q h : NodeData) :
    compareNodes q h { line := true, text := true } =
      (q.line == h.line && q.text == h.text) := by
  by_cases h1 : q.line = h.line <;> by_cases h2 : q.text = h.text <;>
    simp [compareNodes, h1, h2]

theorem compareNodes_err (e h : NodeData) :
    compareNodes e h
        { line := true, start := true, length := true, character := true } =
      (e.line == h.line && e.start == h.start && e.length == h.length &&
        e.character == h.character) := by
  by_cases h1 : e.line = h.line <;> by_cases h2 : e.start = h.start <;>
    by_cases h3 : e.length = h.length <;> by_cases h4 : e.character = h.character <;>
    simp [compareNodes, h1, h2, h3, h4]

/-! ### Hover skip facts -/

theorem hoverKeep_false_of_query (queries errors : List NodeData) (h : NodeData)
    (hq : ∃ q ∈ queries, compareNodes q h { line := true, text := true } = true) :
    hoverKeep queries errors h = false := by
  have hs : (queries.find? (fun q =>
      compareNodes q h { line := true, text := true })).isSome := by
    rw [List.find?_isSome]
    exact hq
  simp [hoverKeep, hs]

theorem hoverKeep_false_of_error (queries errors : List NodeData) (h : NodeData)
    (he : ∃ e ∈ errors, compareNodes e h
      { line := true, start := true, length := true, character := true } = true) :
    hoverKeep queries errors h = false := by
  have hs : (errors.find? (fun e =>
      compareNodes e h
        { line := true, start := true, length := true,
          character := true })).isSome := by
    rw [List.find?_isSome]
    exact he
  simp [hoverKeep, hs]

theorem preprocessCode_eq (tw : TwoslashReturn) (b : Block) :
    preprocessCode tw b =
      addTagAnns tw.tags
        (addCompletionAnns tw.completions
          (addHoverAnns tw.queries tw.errors tw.hovers
            (addHighlightAnns tw.highlights
              (addStaticAnns tw.queries
                (addErrorAnns tw.errors (reconcile tw.code b).1))))) := rfl

theorem countP_static_contrib (queries : List NodeData) (h : NodeData) (L : Nat)
    (hL : h.line < L) :
    (catMap (fun q =>
        if h.line = q.line ∧ q.line < L then [Ann.staticAnn q] else [])
      queries).countP (isStaticMatching h) =
      queries.countP (fun q =>
        compareNodes q h { line := true, text := true }) := by
  induction queries with
  | nil => rfl
  | cons q qs ih =>
    rw [catMap, List.countP_append, ih, List.countP_cons]
    have hhead : (if h.line = q.line ∧ q.line < L then [Ann.staticAnn q]
        else []).countP (isStaticMatching h) =
        if compareNodes q h { line := true, text := true } = true then 1
        else 0 := by
      by_cases hql : h.line = q.line
      · rw [if_pos ⟨hql, hql ▸ hL⟩]
        simp [List.countP_cons, isStaticMatching]
      · rw [if_neg (by simp [hql])]
        have hcf : compareNodes q h { line := true, text := true } = false := by
          rw [compareNodes_line_text]
          have hne : q.line ≠ h.line := fun he => hql he.symm
          simp [hne]
        simp [hcf, isStaticMatching]
    rw [hhead]
    cases hcv : compareNodes q h { line := true, text := true } <;>
      simp [hcv, Nat.add_comm]

/-! ### Per-pass count preservation -/

theorem countP_annsAt_errorPass (errors : List NodeData) (b : Block) (i : Nat)
    (p : Ann → Bool) (hp1 : ∀ e, p (Ann.errorUnderline e) = false)
    (hp2 : ∀ e, p (Ann.errorBox e) = false) :
    (annsAt (addErrorAnns errors b) i).countP p = (annsAt b i).countP p := by
  have hz : (catMap (fun e =>
      if i = e.line ∧ e.line < b.length then
        [Ann.errorUnderline e, Ann.errorBox e]
      else []) errors).countP p = 0 := by
    apply countP_catMap_zero
    intro e _ a ha
    by_cases hc : i = e.line ∧ e.line < b.length
    · rw [if_pos hc] at ha
      rcases (List.mem_cons).mp ha with h1 | h2
      · rw [h1]
        exact hp1 e
      · simp at h2
        rw [h2]
        exact hp2 e
    · rw [if_neg hc] at ha
      simp at ha
  rw [annsAt_addErrorAnns, List.countP_append, hz]
  exact Nat.add_zero _

theorem countP_annsAt_staticPass (queries : List NodeData) (b : Block) (i : Nat)
    (p : Ann → Bool) (hp : ∀ q, p (Ann.staticAnn q) = false) :
    (annsAt (addStaticAnns queries b) i).countP p = (annsAt b i).countP p := by
  have hz : (catMap (fun q =>
      if i = q.line ∧ q.line < b.length then [Ann.staticAnn q] else [])
      queries).countP p = 0 := by
    apply countP_catMap_zero
    intro q _ a ha
    by_cases hc : i = q.line ∧ q.line < b.length
    · rw [if_pos hc] at ha
      simp at ha
      rw [ha]
      exact hp q
    · rw [if_neg hc] at ha
      simp at ha
  rw [annsAt_addStaticAnns, List.countP_append, hz]
  exact Nat.add_zero _

theorem countP_annsAt_highlightPass (hls : List NodeHighlight) (b : Block)
    (i : Nat) (p : Ann → Bool) (hp : ∀ x, p (Ann.highlightAnn x) = false) :
    (annsAt (addHighlightAnns hls b) i).countP p = (annsAt b i).countP p := by
  have hz : (catMap (fun x =>
      if i = x.line ∧ x.line < b.length then [Ann.highlightAnn x] else [])
      hls).countP p = 0 := by
    apply countP_catMap_zero
    intro x _ a ha
    by_cases hc : i = x.line ∧ x.line < b.length
    · rw [if_pos hc] at ha
      simp at ha
      rw [ha]
      exact hp x
    · rw [if_neg hc] at ha
      simp at ha
  rw [annsAt_addHighlightAnns, List.countP_append, hz]
  exact Nat.add_zero _

theorem countP_annsAt_tagPass (tags : List NodeTag) (b : Block) (i : Nat)
    (p : Ann → Bool) (hp : ∀ t, p (Ann.customTag t) = false) :
    (annsAt (addTagAnns tags b) i).countP p = (annsAt b i).countP p := by
  have hz : (catMap (fun t =>
      if i = t.line ∧ t.line < b.length then [Ann.customTag t] else [])
      tags).countP p = 0 := by
    apply countP_catMap_zero
    intro t _ a ha
    by_cases hc : i = t.line ∧ t.line < b.length
    · rw [if_pos hc] at ha
      simp at ha
      rw [ha]
      exact hp t
    · rw [if_neg hc] at ha
      simp at ha
  rw [annsAt_addTagAnns, List.countP_append, hz]
  exact Nat.add_zero _

theorem countP_annsAt_hoverPass (queries errors hovers : List NodeData)
    (b : Block) (i : Nat) (p : Ann → Bool)
    (hp : ∀ x, hoverKeep queries errors x = true →
      p (Ann.hoverAnn x (hoverRange x)) = false) :
    (annsAt (addHoverAnns queries errors hovers b) i).countP p =
      (annsAt b i).countP p := by
  have hz : (catMap (fun x =>
      if hoverKeep queries errors x = true ∧ i = x.line ∧ x.line < b.length
      then [Ann.hoverAnn x (hoverRange x)] else []) hovers).countP p = 0 := by
    apply countP_catMap_zero
    intro x _ a ha
    by_cases hc : hoverKeep queries errors x = true ∧ i = x.line ∧
        x.line < b.length
    · rw [if_pos hc] at ha
      simp at ha
      rw [ha]
      exact hp x hc.1
    · rw [if_neg hc] at ha
      simp at ha
  rw [annsAt_addHoverAnns, List.countP_append, hz]
  exact Nat.add_zero _

/-! ### Claim C1 -/

/-- C1: in a processed code block containing a hover fact and exactly one
query fact with the same line and the same text (the compareNodes test the
hover pass applies), the final annotation set contains no hover annotation
for that hover fact on any line, and the line carries exactly one static
(promoted, non-floating) annotation for that line and text. -/
theorem C1_hover_query_overlap_precedence (tw : TwoslashReturn) (b : Block)
    (h : NodeData)
    (hb : ∀ ln ∈ b, ln.anns = [])
    (hh : h ∈ tw.hovers)
    (hq : tw.queries.countP (fun q =>
      compareNodes q h { line := true, text := true }) = 1)
    (hline : h.line < (preprocessCode tw b).length) :
    (∀ i, (annsAt (preprocessCode tw b) i).countP (isHoverOf h) = 0) ∧
      (annsAt (preprocessCode tw b) h.line).countP (isStaticMatching h) = 1 := by
  have hex : ∃ q ∈ tw.queries,
      compareNodes q h { line := true, text := true } = true := by
    apply List.countP_pos_iff.mp
    rw [hq]
    exact Nat.one_pos
  have hkeep : hoverKeep tw.queries tw.errors h = false :=
    hoverKeep_false_of_query _ tw.errors _ hex
  rw [length_preprocessCode] at hline
  constructor
  · intro i
    rw [preprocessCode_eq]
    rw [countP_annsAt_tagPass _ _ _ (isHoverOf h) (fun t => rfl)]
    rw [countP_addCompletionAnns_zero (isHoverOf h) (fun n r r2 => rfl)
      (fun it nd => rfl)]
    rw [countP_annsAt_hoverPass _ _ _ _ _ (isHoverOf h) ?hov]
    case hov =>
      intro x hkx
      by_cases hxh : x = h
      · rw [hxh] at hkx
        rw [hkeep] at hkx
        exact absurd hkx (by simp)
      · simp [isHoverOf, hxh]
    rw [countP_annsAt_highlightPass _ _ _ (isHoverOf h) (fun x => rfl)]
    rw [countP_annsAt_staticPass _ _ _ (isHoverOf h) (fun q => rfl)]
    rw [countP_annsAt_errorPass _ _ _ (isHoverOf h) (fun e => rfl) (fun e => rfl)]
    rw [reconcile_anns_nil tw.code b hb i]
    rfl
  · rw [preprocessCode_eq]
    rw [countP_annsAt_tagPass _ _ _ (isStaticMatching h) (fun t => rfl)]
    rw [countP_addCompletionAnns (isStaticMatching h) (fun n r => rfl)
      (fun it nd => rfl)]
    rw [countP_annsAt_hoverPass _ _ _ _ _ (isStaticMatching h) (fun x _ => rfl)]
    rw [countP_annsAt_highlightPass _ _ _ (isStaticMatching h) (fun x => rfl)]
    have hlen2 : (addErrorAnns tw.errors (reconcile tw.code b).1).length =
        ((reconcile tw.code b).1).length := by
      rw [addErrorAnns, length_annPass]
    rw [annsAt_addStaticAnns, List.countP_append]
    rw [countP_annsAt_errorPass _ _ _ (isStaticMatching h) (fun e => rfl)
      (fun e => rfl)]
    rw [reconcile_anns_nil tw.code b hb h.line]
    rw [hlen2, countP_static_contrib tw.queries h _ hline, hq]
    rfl

/-! ### Claim C2 -/

/-- C2: in a processed code block containing a hover fact and an error
(diagnostic) fact agreeing on line, start, length and character (the
compareNodes test the hover pass applies), the final annotation set
contains no hover annotation for that hover fact on any line, while both
of the diagnostic's annotations (underline and box) are attached to the
diagnostic's line carrying the error node unchanged. -/
theorem C2_diagnostic_dominance (tw : TwoslashReturn) (b : Block)
    (e h : NodeData)
    (hb : ∀ ln ∈ b, ln.anns = [])
    (he : e ∈ tw.errors)
    (hh : h ∈ tw.hovers)
    (hcmp : compareNodes e h
      { line := true, start := true, length := true, character := true } = true)
    (hline : h.line < (preprocessCode tw b).length) :
    (∀ i, (annsAt (preprocessCode tw b) i).countP (isHoverOf h) = 0) ∧
      Ann.errorUnderline e ∈ annsAt (preprocessCode tw b) e.line ∧
      Ann.errorBox e ∈ annsAt (preprocessCode tw b) e.line := by
  have hkeep : hoverKeep tw.queries tw.errors h = false :=
    hoverKeep_false_of_error tw.queries _ _ ⟨e, he, hcmp⟩
  have heh : e.line = h.line := by
    rw [compareNodes_err] at hcmp
    simp only [Bool.and_eq_true, beq_iff_eq] at hcmp
    exact hcmp.1.1.1
  rw [length_preprocessCode] at hline
  have heline : e.line < ((reconcile tw.code b).1).length := heh ▸ hline
  refine ⟨?_, ?_, ?_⟩
  · intro i
    rw [preprocessCode_eq]
    rw [countP_annsAt_tagPass _ _ _ (isHoverOf h) (fun t => rfl)]
    rw [countP_addCompletionAnns_zero (isHoverOf h) (fun n r r2 => rfl)
      (fun it nd => rfl)]
    rw [countP_annsAt_hoverPass _ _ _ _ _ (isHoverOf h) ?hov]
    case hov =>
      intro x hkx
      by_cases hxh : x = h
      · rw [hxh] at hkx
        rw [hkeep] at hkx
        exact absurd hkx (by simp)
      · simp [isHoverOf, hxh]
    rw [countP_annsAt_highlightPass _ _ _ (isHoverOf h) (fun x => rfl)]
    rw [countP_annsAt_staticPass _ _ _ (isHoverOf h) (fun q => rfl)]
    rw [countP_annsAt_errorPass _ _ _ (isHoverOf h) (fun e2 => rfl)
      (fun e2 => rfl)]
    rw [reconcile_anns_nil tw.code b hb i]
    rfl
  · rw [preprocessCode_eq, annsAt_addTagAnns]
    apply List.mem_append_left
    apply mem_addCompletionAnns _ (by intro n r; simp)
    rw [annsAt_addHoverAnns]
    apply List.mem_append_left
    rw [annsAt_addHighlightAnns]
    apply List.mem_append_left
    rw [annsAt_addStaticAnns]
    apply List.mem_append_left
    rw [annsAt_addErrorAnns]
    apply List.mem_append_right
    apply (mem_catMap _ _ _).mpr
    refine ⟨e, he, ?_⟩
    rw [if_pos ⟨rfl, heline⟩]
    simp
  · rw [preprocessCode_eq, annsAt_addTagAnns]
    apply List.mem_append_left
    apply mem_addCompletionAnns _ (by intro n r; simp)
    rw [annsAt_addHoverAnns]
    apply List.mem_append_left
    rw [annsAt_addHighlightAnns]
    apply List.mem_append_left
    rw [annsAt_addStaticAnns]
    apply List.mem_append_left
    rw [annsAt_addErrorAnns]
    apply List.mem_append_right
    apply (mem_catMap _ _ _).mpr
    refine ⟨e, he, ?_⟩
    rw [if_pos ⟨rfl, heline⟩]
    simp

/-! ### Claim C7, amended -/

/-- C7 as the code implements it: a custom tag fact is attached exactly
when its declared line exists in the reconciled document, and then to
exactly that line; a tag whose declared line is not addressable is
dropped silently, with no search for a nearby line. -/
theorem C7_tag_anchor_amended (tw : TwoslashReturn) (b : Block) (t : NodeTag)
    (hb : ∀ ln ∈ b, ln.anns = [])
    (ht : t ∈ tw.tags) :
    (t.line < (preprocessCode tw b).length →
      Ann.customTag t ∈ annsAt (preprocessCode tw b) t.line) ∧
      ((preprocessCode tw b).length ≤ t.line →
        ∀ i, Ann.customTag t ∉ annsAt (preprocessCode tw b) i) := by
  have hlen6 : (addCompletionAnns tw.completions
      (addHoverAnns tw.queries tw.errors tw.hovers
        (addHighlightAnns tw.highlights
          (addStaticAnns tw.queries
            (addErrorAnns tw.errors (reconcile tw.code b).1))))).length =
      ((reconcile tw.code b).1).length := by
    simp only [length_addCompletionAnns, addHoverAnns, addHighlightAnns,
      addStaticAnns, addErrorAnns, length_annPass]
  constructor
  · intro hlt
    rw [length_preprocessCode] at hlt
    rw [preprocessCode_eq, annsAt_addTagAnns]
    apply List.mem_append_right
    apply (mem_catMap _ _ _).mpr
    refine ⟨t, ht, ?_⟩
    rw [if_pos ⟨rfl, by rw [hlen6]; exact hlt⟩]
    simp
  · intro hge i
    rw [length_preprocessCode] at hge
    have hz : (annsAt (preprocessCode tw b) i).countP
        (fun a => a == Ann.customTag t) = 0 := by
      rw [preprocessCode_eq, annsAt_addTagAnns, List.countP_append]
      have htagz : (catMap (fun t2 =>
          if i = t2.line ∧ t2.line < (addCompletionAnns tw.completions
            (addHoverAnns tw.queries tw.errors tw.hovers
              (addHighlightAnns tw.highlights
                (addStaticAnns tw.queries
                  (addErrorAnns tw.errors (reconcile tw.code b).1))))).length
          then [Ann.customTag t2] else []) tw.tags).countP
          (fun a => a == Ann.customTag t) = 0 := by
        apply countP_catMap_zero
        intro t2 _ a ha
        by_cases hc : i = t2.line ∧ t2.line < (addCompletionAnns tw.completions
            (addHoverAnns tw.queries tw.errors tw.hovers
              (addHighlightAnns tw.highlights
                (addStaticAnns tw.queries
                  (addErrorAnns tw.errors (reconcile tw.code b).1))))).length
        · rw [if_pos hc] at ha
          simp at ha
          rw [ha]
          by_cases ht2 : t2 = t
          · exfalso
            rw [ht2] at hc
            rw [hlen6] at hc
            omega
          · simp [ht2]
        · rw [if_neg hc] at ha
          simp at ha
      rw [htagz]
      rw [countP_addCompletionAnns _ (fun n r => by simp) (fun it nd => by simp)]
      rw [countP_annsAt_hoverPass _ _ _ _ _ _ (fun x _ => by simp)]
      rw [countP_annsAt_highlightPass _ _ _ _ (fun x => by simp)]
      rw [countP_annsAt_staticPass _ _ _ _ (fun q => by simp)]
      rw [countP_annsAt_errorPass _ _ _ _ (fun e => by simp) (fun e => by simp)]
      rw [reconcile_anns_nil tw.code b hb i]
      rfl
    intro hmem
    have hfalse := List.countP_eq_zero.mp hz _ hmem
    simp at hfalse

/-! ### Claim C3 -/

/-- C3: reconciling a block currently holding m lines against rewritten
text of n lines with n ≤ m leaves exactly n lines in the document,
performs exactly m - n single-line deletions, and every deletion targets
index n. -/
theorem C3_reconcile_length_invariant (code : String) (b : Block)
    (h : (splitCodeToLines code).length ≤ b.length) :
    ((reconcile code b).1).length = (splitCodeToLines code).length ∧
      ((reconcile code b).2).length =
        b.length - (splitCodeToLines code).length ∧
      ∀ j ∈ (reconcile code b).2, j = (splitCodeToLines code).length := by
  obtain ⟨h1, h2⟩ := reconcile_spec code b h
  refine ⟨h1, ?_, ?_⟩
  · rw [h2, List.length_replicate]
  · intro j hj
    rw [h2] at hj
    exact List.eq_of_mem_replicate hj

/-- Witness for C3: a four-line block against two rewritten lines ends up
with two lines, after two deletions both targeting index 2. -/
theorem C3_reconcile_witness :
    ((reconcile "a\nb" [⟨"w", []⟩, ⟨"x", []⟩, ⟨"y", []⟩, ⟨"z", []⟩]).1).length =
        (splitCodeToLines "a\nb").length ∧
      ((reconcile "a\nb" [⟨"w", []⟩, ⟨"x", []⟩, ⟨"y", []⟩, ⟨"z", []⟩]).2).length =
        ([⟨"w", []⟩, ⟨"x", []⟩, ⟨"y", []⟩, ⟨"z", []⟩] : Block).length -
          (splitCodeToLines "a\nb").length ∧
      ∀ j ∈ (reconcile "a\nb" [⟨"w", []⟩, ⟨"x", []⟩, ⟨"y", []⟩, ⟨"z", []⟩]).2,
        j = (splitCodeToLines "a\nb").length :=
  C3_reconcile_length_invariant "a\nb"
    [⟨"w", []⟩, ⟨"x", []⟩, ⟨"y", []⟩, ⟨"z", []⟩] (by decide)

/-! ### Witnesses for C1 and C2 -/

/-- Witness for C1: one hover and one query with the same line and text;
after processing, line 0 carries no hover annotation for the fact and
exactly one static annotation for it. -/
theorem C1_overlap_witness :
    (annsAt (preprocessCode
        ⟨"const x = 1", [], [⟨0, 6, 6, 1, "const x: number"⟩], [],
          [⟨0, 6, 6, 1, "const x: number"⟩], [], []⟩
        [⟨"const x = 1", []⟩]) 0).countP
      (isHoverOf ⟨0, 6, 6, 1, "const x: number"⟩) = 0 ∧
    (annsAt (preprocessCode
        ⟨"const x = 1", [], [⟨0, 6, 6, 1, "const x: number"⟩], [],
          [⟨0, 6, 6, 1, "const x: number"⟩], [], []⟩
        [⟨"const x = 1", []⟩]) 0).countP
      (isStaticMatching ⟨0, 6, 6, 1, "const x: number"⟩) = 1 := by
  have hmain := C1_hover_query_overlap_precedence
    ⟨"const x = 1", [], [⟨0, 6, 6, 1, "const x: number"⟩], [],
      [⟨0, 6, 6, 1, "const x: number"⟩], [], []⟩
    [⟨"const x = 1", []⟩] ⟨0, 6, 6, 1, "const x: number"⟩
    (by decide) (by decide) (by decide) (by decide)
  exact ⟨hmain.1 0, hmain.2⟩

/-- Witness for C2: one error and one hover agreeing on line, start,
length and character; after processing, line 0 carries no hover
annotation for the fact while both error annotations are present. -/
theorem C2_dominance_witness :
    (annsAt (preprocessCode
        ⟨"const x = 1", [⟨0, 6, 6, 1, "Type error"⟩], [], [],
          [⟨0, 6, 6, 1, "const x: number"⟩], [], []⟩
        [⟨"const x = 1", []⟩]) 0).countP
      (isHoverOf ⟨0, 6, 6, 1, "const x: number"⟩) = 0 ∧
    Ann.errorUnderline ⟨0, 6, 6, 1, "Type error"⟩ ∈
      annsAt (preprocessCode
        ⟨"const x = 1", [⟨0, 6, 6, 1, "Type error"⟩], [], [],
          [⟨0, 6, 6, 1, "const x: number"⟩], [], []⟩
        [⟨"const x = 1", []⟩]) 0 ∧
    Ann.errorBox ⟨0, 6, 6, 1, "Type error"⟩ ∈
      annsAt (preprocessCode
        ⟨"const x = 1", [⟨0, 6, 6, 1, "Type error"⟩], [], [],
          [⟨0, 6, 6, 1, "const x: number"⟩], [], []⟩
        [⟨"const x = 1", []⟩]) 0 := by
  have hmain := C2_diagnostic_dominance
    ⟨"const x = 1", [⟨0, 6, 6, 1, "Type error"⟩], [], [],
      [⟨0, 6, 6, 1, "const x: number"⟩], [], []⟩
    [⟨"const x = 1", []⟩] ⟨0, 6, 6, 1, "Type error"⟩
    ⟨0, 6, 6, 1, "const x: number"⟩
    (by decide) (by decide) (by decide) (by decide) (by decide)
  exact ⟨hmain.1 0, hmain.2.1, hmain.2.2⟩

/-! ### Counterexample and witness for C7 -/

/-- C7 counterexample: a tag declared at line 5 of a three-line block.
Addressable lines exist (0, 1 and 2), so the claim's fallback search
would attach the tag to one of them; the code instead drops it, leaving
the block without any annotation. -/
theorem C7_counterexample :
    0 < (preprocessCode
        ⟨"l0\nl1\nl2", [], [], [], [], [], [⟨5, "log", none⟩]⟩
        [⟨"l0", []⟩, ⟨"l1", []⟩, ⟨"l2", []⟩]).length ∧
    preprocessCode ⟨"l0\nl1\nl2", [], [], [], [], [], [⟨5, "log", none⟩]⟩
        [⟨"l0", []⟩, ⟨"l1", []⟩, ⟨"l2", []⟩] =
      [⟨"l0", []⟩, ⟨"l1", []⟩, ⟨"l2", []⟩] := by
  exact ⟨by decide, by decide⟩

/-- Witness for the amended C7: a tag declared at an existing line is
attached to exactly that line. -/
theorem C7_tag_anchor_witness :
    Ann.customTag ⟨1, "log", none⟩ ∈
      annsAt (preprocessCode ⟨"a\nb", [], [], [], [], [], [⟨1, "log", none⟩]⟩
        [⟨"a", []⟩, ⟨"b", []⟩]) 1 :=
  (C7_tag_anchor_amended ⟨"a\nb", [], [], [], [], [], [⟨1, "log", none⟩]⟩
    [⟨"a", []⟩, ⟨"b", []⟩] ⟨1, "log", none⟩ (by decide) (by decide)).1
    (by decide)

/-! ### Claim C6: counterexample and amended statement -/

/-- C6 counterexample: hover node at start 2 with length 5 (inline
range 2 to 7) and a completion anchored at column 4 with span length 3
(span 4 to 7).  The hover's range overlaps the completion's leading
edge, so the claim says the completion's start column is pulled inward
to 2; instead the code keeps the completion annotation anchored at
column 4 and moves the hover's own columnStart from 2 to 4. -/
theorem C6_counterexample :
    annsAt (preprocessCode
        ⟨"x", [], [], [], [⟨0, 2, 2, 5, "T"⟩], [⟨0, 4, 7, []⟩], []⟩
        [⟨"const", []⟩]) 0 =
      [Ann.hoverAnn ⟨0, 2, 2, 5, "T"⟩ ⟨4, 7⟩,
        Ann.completionAnn ⟨4, 7, 3, []⟩ ⟨0, 4, 7, []⟩] := by decide

/-- C6 as the code implements it: a hover annotation on the line is
deleted exactly when its node's start equals the completion's anchor
column and its length equals the completion's span length; a surviving
hover is kept with its inline range adjusted (its start column moves to
the completion's anchor column when that anchor lies inside the range);
and the processed completion keeps its own start column at the
completion's anchor column, unmoved by any hover. -/
theorem C6_hover_completion_amended (p : CompletionItem) (anns : List Ann)
    (n : NodeData) (r : InlineRange)
    (hmem : Ann.hoverAnn n r ∈ anns) :
    ((n.start = p.startCharacter ∧ (n.length : Int) = p.length) →
      ∀ r2, Ann.hoverAnn n r2 ∉ removeHoverFromCompletions p anns) ∧
      (¬(n.start = p.startCharacter ∧ (n.length : Int) = p.length) →
        Ann.hoverAnn n (adjustHoverRange p r) ∈
          removeHoverFromCompletions p anns) ∧
      (∀ node : NodeCompletionData,
        (processCompletion node).startCharacter = node.character) := by
  refine ⟨?_, ?_, fun node => rfl⟩
  · intro hd r2 hmem2
    simp only [removeHoverFromCompletions] at hmem2
    obtain ⟨a, ha, hfa⟩ := List.mem_filterMap.mp hmem2
    cases a with
    | hoverAnn m r0 =>
      dsimp only at hfa
      by_cases hc : m.start = p.startCharacter ∧ (m.length : Int) = p.length
      · rw [if_pos hc] at hfa
        simp at hfa
      · rw [if_neg hc] at hfa
        simp only [Option.some.injEq, Ann.hoverAnn.injEq] at hfa
        exact absurd (hfa.1 ▸ hd) hc
    | errorUnderline e => simp at hfa
    | errorBox e => simp at hfa
    | staticAnn nd => simp at hfa
    | highlightAnn hl => simp at hfa
    | completionAnn it nd => simp at hfa
    | customTag t => simp at hfa
  · intro hd
    simp only [removeHoverFromCompletions]
    apply List.mem_filterMap.mpr
    refine ⟨Ann.hoverAnn n r, hmem, ?_⟩
    dsimp only
    rw [if_neg hd]

/-- Witness for the amended C6: the surviving hover of the
counterexample input, with its range start moved to the completion's
anchor column. -/
theorem C6_hover_completion_witness :
    Ann.hoverAnn ⟨0, 2, 2, 5, "T"⟩ (adjustHoverRange ⟨4, 7, 3, []⟩ ⟨2, 7⟩) ∈
      removeHoverFromCompletions ⟨4, 7, 3, []⟩
        [Ann.hoverAnn ⟨0, 2, 2, 5, "T"⟩ ⟨2, 7⟩] :=
  (C6_hover_completion_amended ⟨4, 7, 3, []⟩
    [Ann.hoverAnn ⟨0, 2, 2, 5, "T"⟩ ⟨2, 7⟩] ⟨0, 2, 2, 5, "T"⟩ ⟨2, 7⟩
    (by decide)).2.1 (by decide)

/-! ### Claim C5: counterexample and amended statement -/

/-- C5 counterexample: the spec's literal 9-line source writes the
markers as plain cut-start and cut-end comments, but the marker regexes
require the dashed forms; on the literal source the Region Cutter finds
no cut section and deletes nothing, leaving all nine lines intact. -/
theorem C5_counterexample :
    cutSections ["A", "//cut-start", "B", "//cut-end", "C", "//cut-start",
        "D", "//cut-end", "E"] = [] ∧
      processCutOffPoints ["A", "//cut-start", "B", "//cut-end", "C",
        "//cut-start", "D", "//cut-end", "E"] =
        ["A", "//cut-start", "B", "//cut-end", "C", "//cut-start", "D",
          "//cut-end", "E"] :=
  ⟨by decide, by decide⟩

/-- C5 amended: with the markers written in the dashed form the regexes
accept, the Region Cutter finds exactly the two sections covering lines
1 to 3 and 5 to 7, marks exactly those six lines, and the deletion
leaves lines 0, 4 and 8 intact. -/
theorem C5_section_pairing_amended :
    cutSections ["A", "// ---cut-start---", "B", "// ---cut-end---", "C",
        "// ---cut-start---", "D", "// ---cut-end---", "E"] =
        [⟨1, 3⟩, ⟨5, 7⟩] ∧
      processCutOffPointsLines ["A", "// ---cut-start---", "B",
        "// ---cut-end---", "C", "// ---cut-start---", "D",
        "// ---cut-end---", "E"] = [1, 2, 3, 5, 6, 7] ∧
      processCutOffPoints ["A", "// ---cut-start---", "B", "// ---cut-end---",
        "C", "// ---cut-start---", "D", "// ---cut-end---", "E"] =
        ["A", "C", "E"] :=
  ⟨by decide, by decide, by decide⟩

/-! ### Claim C9 -/

/-- C9: the processed completion item list is the first five candidates
in their original relative order (the processed list is the image of the
five-element prefix), its length is the minimum of five and the
candidate count, and a completion fact with twelve candidates yields
exactly five entries. -/
theorem C9_completion_truncation (c : NodeCompletionData) :
    (processCompletion c).items =
        (c.completions.take 5).map processCompletionEntry ∧
      (processCompletion c).items.length = min 5 c.completions.length ∧
      (c.completions.length = 12 → (processCompletion c).items.length = 5) := by
  have h1 : (processCompletion c).items =
      (c.completions.take 5).map processCompletionEntry := by
    show (c.completions.map processCompletionEntry).take 5 = _
    rw [List.map_take]
  have h2 : (processCompletion c).items.length = min 5 c.completions.length := by
    rw [h1, List.length_map, List.length_take]
  exact ⟨h1, h2, fun h12 => by rw [h2, h12]; decide⟩

/-- Witness for C9: a completion fact with twelve candidates yields
exactly five processed entries. -/
theorem C9_truncation_witness :
    (processCompletion ⟨0, 4, 7,
      [⟨"c01", none, none⟩, ⟨"c02", none, none⟩, ⟨"c03", none, none⟩,
       ⟨"c04", none, none⟩, ⟨"c05", none, none⟩, ⟨"c06", none, none⟩,
       ⟨"c07", none, none⟩, ⟨"c08", none, none⟩, ⟨"c09", none, none⟩,
       ⟨"c10", none, none⟩, ⟨"c11", none, none⟩,
       ⟨"c12", none, none⟩]⟩).items.length = 5 :=
  (C9_completion_truncation ⟨0, 4, 7,
    [⟨"c01", none, none⟩, ⟨"c02", none, none⟩, ⟨"c03", none, none⟩,
     ⟨"c04", none, none⟩, ⟨"c05", none, none⟩, ⟨"c06", none, none⟩,
     ⟨"c07", none, none⟩, ⟨"c08", none, none⟩, ⟨"c09", none, none⟩,
     ⟨"c10", none, none⟩, ⟨"c11", none, none⟩,
     ⟨"c12", none, none⟩]⟩).2.2 (by decide)

/-! ### Claim C10 -/

theorem mergeTags_spec (l acc : List String) :
    (∃ ext, l.foldl (fun acc tag =>
        if acc.contains tag then acc else acc ++ [tag]) acc = acc ++ ext ∧
      ∀ t, t ∈ ext ↔ t ∈ l ∧ t ∉ acc) ∧
    (acc.Nodup → (l.foldl (fun acc tag =>
        if acc.contains tag then acc else acc ++ [tag]) acc).Nodup) := by
  induction l generalizing acc with
  | nil =>
    refine ⟨⟨[], by simp, by simp⟩, fun h => h⟩
  | cons a l ih =>
    rw [List.foldl_cons]
    by_cases hc : acc.contains a
    · rw [if_pos hc]
      have hamem : a ∈ acc := List.elem_iff.mp hc
      obtain ⟨⟨ext, heq, hmem⟩, hnd⟩ := ih acc
      refine ⟨⟨ext, heq, fun t => ?_⟩, hnd⟩
      rw [hmem t]
      constructor
      · rintro ⟨htl, hta⟩
        exact ⟨List.mem_cons_of_mem _ htl, hta⟩
      · rintro ⟨htl, hta⟩
        rcases (List.mem_cons).mp htl with h1 | h2
        · exact absurd (h1 ▸ hamem) hta
        · exact ⟨h2, hta⟩
    · rw [if_neg hc]
      have hamem : a ∉ acc := fun hmem => hc (List.elem_iff.mpr hmem)
      obtain ⟨⟨ext, heq, hmem⟩, hnd⟩ := ih (acc ++ [a])
      refine ⟨⟨a :: ext, by rw [heq, List.append_assoc]; rfl, fun t => ?_⟩, ?_⟩
      · constructor
        · intro ht
          rcases (List.mem_cons).mp ht with h1 | h2
          · exact ⟨by simp [h1], h1 ▸ hamem⟩
          · obtain ⟨htl, htna⟩ := (hmem t).mp h2
            refine ⟨List.mem_cons_of_mem _ htl, fun hta => htna ?_⟩
            simp [hta]
        · rintro ⟨htl, hta⟩
          rcases (List.mem_cons).mp htl with h1 | h2
          · simp [h1]
          · by_cases hteqa : t = a
            · simp [hteqa]
            · apply List.mem_cons_of_mem
              apply (hmem t).mpr
              refine ⟨h2, ?_⟩
              simp [hta, hteqa]
      · intro hndacc
        apply hnd
        rw [List.nodup_append]
        refine ⟨hndacc, by simp, ?_⟩
        intro t htacc htone
        simp at htone
        exact hamem (htone ▸ htacc)

/-- C10: for every options value, including the absent one, the merged
custom-tag list starts with the four default tags in order, continues
with exactly the caller tags not already present, and holds no tag
twice, duplicated caller input included. -/
theorem C10_custom_tags_merge (o : Option TwoslashOpts) :
    twoslashDefaultTags = ["annotate", "log", "warn", "error"] ∧
      ∃ rest, (checkForCustomTagsAndMerge o).customTags =
          some (twoslashDefaultTags ++ rest) ∧
        (twoslashDefaultTags ++ rest).Nodup ∧
        ∀ t, t ∈ rest ↔
          t ∈ (o.bind TwoslashOpts.customTags).getD [] ∧
            t ∉ twoslashDefaultTags := by
  refine ⟨rfl, ?_⟩
  obtain ⟨⟨ext, heq, hmem⟩, hnd⟩ :=
    mergeTags_spec ((o.bind TwoslashOpts.customTags).getD []) twoslashDefaultTags
  refine ⟨ext, ?_, ?_, hmem⟩
  · show some _ = _
    rw [heq]
  · rw [← heq]
    exact hnd (by decide)

/-- Witness for C10: a caller list with a duplicate and a tag already
present produces the defaults followed by the one genuinely new tag. -/
theorem C10_merge_witness :
    (checkForCustomTagsAndMerge (some ⟨some ["zeta", "log", "zeta"]⟩)).customTags =
      some ["annotate", "log", "warn", "error", "zeta"] ∧
      ["annotate", "log", "warn", "error", "zeta"].Nodup := by
  have hmain := C10_custom_tags_merge (some ⟨some ["zeta", "log", "zeta"]⟩)
  refine ⟨by decide, by decide⟩

/-! ### Marker matching facts -/

theorem matchLit_iff (lit cs : List Char) :
    matchLit lit cs = true ↔ ∃ r, afterSlashes cs = some r ∧
      r.take lit.length = lit ∧ isAllWS (r.drop lit.length) = true := by
  unfold matchLit
  cases haf : afterSlashes cs with
  | none => simp
  | some r => simp [Bool.and_eq_true]

theorem matchLit_disjoint (l1 l2 cs : List Char)
    (hlen : l1.length ≤ l2.length) (hne : l2.take l1.length ≠ l1)
    (h1 : matchLit l1 cs = true) (h2 : matchLit l2 cs = true) : False := by
  obtain ⟨r, har, ht1, -⟩ := (matchLit_iff l1 cs).mp h1
  obtain ⟨r2, har2, ht2, -⟩ := (matchLit_iff l2 cs).mp h2
  rw [har] at har2
  injection har2 with hr
  subst hr
  apply hne
  rw [← ht2, List.take_take, Nat.min_eq_left hlen, ht1]

theorem cutBefore_excl (line : String) (h : reCutBefore line = true) :
    reCutAfter line = false ∧ reCutStart line = false ∧
      reCutEnd line = false := by
  rw [reCutBefore, Bool.or_eq_true] at h
  refine ⟨?_, ?_, ?_⟩
  · cases hA : reCutAfter line with
    | false => rfl
    | true =>
      rw [reCutAfter] at hA
      exfalso
      rcases h with h1 | h2
      · exact matchLit_disjoint "---cut-after---".toList
          "---cut-before---".toList _ (by decide) (by decide) hA h1
      · exact matchLit_disjoint "---cut---".toList
          "---cut-after---".toList _ (by decide) (by decide) h2 hA
  · cases hS : reCutStart line with
    | false => rfl
    | true =>
      rw [reCutStart] at hS
      exfalso
      rcases h with h1 | h2
      · exact matchLit_disjoint "---cut-start---".toList
          "---cut-before---".toList _ (by decide) (by decide) hS h1
      · exact matchLit_disjoint "---cut---".toList
          "---cut-start---".toList _ (by decide) (by decide) h2 hS
  · cases hE : reCutEnd line with
    | false => rfl
    | true =>
      rw [reCutEnd] at hE
      exfalso
      rcases h with h1 | h2
      · exact matchLit_disjoint "---cut-end---".toList
          "---cut-before---".toList _ (by decide) (by decide) hE h1
      · exact matchLit_disjoint "---cut---".toList
          "---cut-end---".toList _ (by decide) (by decide) h2 hE

/-! ### Index search facts -/

theorem listAt_lt {α : Type} (l : List α) (k : Nat) (a : α)
    (h : listAt l k = some a) : k < l.length := by
  induction l generalizing k with
  | nil => simp [listAt] at h
  | cons x xs ih =>
    cases k with
    | zero => simp
    | succ m => exact Nat.succ_lt_succ (ih m h)

theorem findIndexJS_first {α : Type} (p : α → Bool) (l : List α) (k : Nat)
    (a : α) (hk : listAt l k = some a) (hp : p a = true)
    (hbef : ∀ j b, listAt l j = some b → j < k → p b = false) :
    findIndexJS p l = some k := by
  induction l generalizing k with
  | nil => simp [listAt] at hk
  | cons x xs ih =>
    cases k with
    | zero =>
      simp [listAt] at hk
      rw [findIndexJS, if_pos (hk ▸ hp)]
    | succ m =>
      have hx : p x = false := hbef 0 x rfl (Nat.succ_pos m)
      rw [findIndexJS, if_neg (by simp [hx])]
      have hbef2 : ∀ j b, listAt xs j = some b → j < m → p b = false :=
        fun j b hj hjm => hbef (j + 1) b hj (Nat.succ_lt_succ hjm)
      rw [ih m hk hbef2]
      rfl

theorem findIndexJS_none {α : Type} (p : α → Bool) (l : List α)
    (hall : ∀ j b, listAt l j = some b → p b = false) :
    findIndexJS p l = none := by
  induction l with
  | nil => rfl
  | cons x xs ih =>
    have hx : p x = false := hall 0 x rfl
    rw [findIndexJS, if_neg (by simp [hx])]
    have hall2 : ∀ j b, listAt xs j = some b → p b = false :=
      fun j b hj => hall (j + 1) b hj
    rw [ih hall2]
    rfl

theorem contains_range (m i : Nat) :
    (List.range m).contains i = decide (i < m) := by
  by_cases h : i < m
  · simp [List.contains, List.elem_iff, List.mem_range, h]
  · rw [decide_eq_false h, ← Bool.not_eq_true, List.contains, List.elem_iff]
    simp [List.mem_range, h]

theorem deleteLinesGo_range {α : Type} (m : Nat) (l : List α) :
    ∀ i : Nat, deleteLinesGo (List.range m) i l = l.drop (m - i) := by
  induction l with
  | nil => intro i; simp [deleteLinesGo]
  | cons a t ih =>
    intro i
    rw [deleteLinesGo, contains_range]
    by_cases h : i < m
    · rw [if_pos (by simp [h]), ih (i + 1)]
      have hm : m - i = (m - (i + 1)) + 1 := by omega
      rw [hm, List.drop_succ_cons]
    · rw [if_neg (by simp [h]), ih (i + 1)]
      have h0 : m - i = 0 := by omega
      have h1 : m - (i + 1) = 0 := by omega
      simp [h0, h1]

theorem counter_zero (k : Nat) : counter 0 k = List.range (k + 1) := by
  rw [counter, Nat.sub_zero, List.range_eq_range']

/-! ### Claim C4 -/

/-- C4: for a source whose line k is a leading cut marker (the cut or
cut-before form) and that holds no other cut marker on any line, the
Region Cutter marks exactly lines 0 through k, and the deletion drops
exactly that prefix. -/
theorem C4_cut_idempotence (code : List String) (k : Nat) (lk : String)
    (hk : listAt code k = some lk)
    (hmark : reCutBefore lk = true)
    (hothers : ∀ j lj, listAt code j = some lj → j ≠ k →
      reCutBefore lj = false ∧ reCutAfter lj = false ∧
        reCutStart lj = false ∧ reCutEnd lj = false) :
    processCutOffPointsLines code = List.range (k + 1) ∧
      processCutOffPoints code = code.drop (k + 1) := by
  obtain ⟨hkA, hkS, hkE⟩ := cutBefore_excl lk hmark
  have hBefore : findIndexJS reCutBefore code = some k := by
    apply findIndexJS_first reCutBefore code k lk hk hmark
    intro j b hj hjk
    exact (hothers j b hj (Nat.ne_of_lt hjk)).1
  have hAfter : findIndexJS reCutAfter code = none := by
    apply findIndexJS_none
    intro j b hj
    by_cases hjk : j = k
    · rw [hjk] at hj
      rw [hj] at hk
      injection hk with hbk
      rw [hbk]
      exact hkA
    · exact (hothers j b hj hjk).2.1
  have hStart : findIndexJS reCutStart code = none := by
    apply findIndexJS_none
    intro j b hj
    by_cases hjk : j = k
    · rw [hjk] at hj
      rw [hj] at hk
      injection hk with hbk
      rw [hbk]
      exact hkS
    · exact (hothers j b hj hjk).2.2.1
  have hSec : cutSections code = [] := by
    have hs : findIdxFrom reCutStart code 0 = none := by
      rw [findIdxFrom, List.drop_zero, hStart]
      rfl
    simp [cutSections, cutSectionsGo, hs]
  have hLines : processCutOffPointsLines code = List.range (k + 1) := by
    rw [processCutOffPointsLines, hBefore, hAfter, hSec]
    simp [counter_zero]
  refine ⟨hLines, ?_⟩
  rw [processCutOffPoints]
  simp only [hLines]
  have hne : (List.range (k + 1)).isEmpty = false := by
    cases hr : List.range (k + 1) with
    | nil =>
      have := List.length_range (k + 1)
      rw [hr] at this
      simp at this
    | cons x xs => rfl
  rw [hne]
  simp only [Bool.false_eq_true, if_false]
  rw [deleteLines, deleteLinesGo_range]
  simp

/-- Witness for C4: a leading cut marker at line 0 of a three-line
source marks exactly line 0 and leaves the other two lines. -/
theorem C4_cut_witness :
    processCutOffPointsLines ["// ---cut---", "x", "y"] = List.range 1 ∧
      processCutOffPoints ["// ---cut---", "x", "y"] =
        ["// ---cut---", "x", "y"].drop 1 := by
  apply C4_cut_idempotence ["// ---cut---", "x", "y"] 0 "// ---cut---"
    (by decide) (by decide)
  intro j lj hj hne
  match j with
  | 0 => exact absurd rfl hne
  | 1 =>
    simp [listAt] at hj
    rw [← hj]
    decide
  | 2 =>
    simp [listAt] at hj
    rw [← hj]
    decide
  | (n + 3) => simp [listAt] at hj

/-! ### Whitespace and comment-front parsing facts -/

theorem dropWS_append_ws (w l : List Char) (hw : isAllWS w = true) :
    dropWS (w ++ l) = dropWS l := by
  induction w with
  | nil => rfl
  | cons c t ih =>
    rw [isAllWS, List.all_cons, Bool.and_eq_true] at hw
    rw [List.cons_append, dropWS, List.dropWhile_cons, if_pos hw.1]
    exact ih hw.2

theorem dropWS_cons_not_ws (c : Char) (l : List Char) (hc : isWS c = false) :
    dropWS (c :: l) = c :: l := by
  rw [dropWS, List.dropWhile_cons, if_neg (by simp [hc])]

theorem takeWhile_isAllWS (cs : List Char) :
    isAllWS (cs.takeWhile isWS) = true := by
  rw [isAllWS, List.all_eq_true]
  intro c hc
  exact List.mem_takeWhile_imp hc

theorem afterSlashes_inv (cs r : List Char) (h : afterSlashes cs = some r) :
    ∃ w1 rest, isAllWS w1 = true ∧ cs = w1 ++ '/' :: '/' :: rest ∧
      r = dropWS rest := by
  unfold afterSlashes at h
  split at h
  · rename_i rest heq
    injection h with hr
    refine ⟨cs.takeWhile isWS, rest, takeWhile_isAllWS cs, ?_, hr.symm⟩
    conv_lhs => rw [← List.takeWhile_append_dropWhile isWS cs]
    rw [show cs.dropWhile isWS = dropWS cs from rfl, heq]
  · exact absurd h (by simp)

theorem afterSlashes_build (w1 w2 tail2 : List Char) (hw1 : isAllWS w1 = true)
    (hw2 : isAllWS w2 = true) (c : Char) (t : List Char)
    (hc : isWS c = false) :
    afterSlashes (w1 ++ ['/', '/'] ++ w2 ++ (c :: t) ++ tail2) =
      some (c :: (t ++ tail2)) := by
  have h1 : w1 ++ ['/', '/'] ++ w2 ++ (c :: t) ++ tail2 =
      w1 ++ ('/' :: '/' :: (w2 ++ (c :: (t ++ tail2)))) := by
    simp [List.append_assoc]
  rw [h1, afterSlashes, dropWS_append_ws w1 _ hw1,
    dropWS_cons_not_ws '/' _ (by decide)]
  have h2 : dropWS (w2 ++ (c :: (t ++ tail2))) = c :: (t ++ tail2) := by
    rw [dropWS_append_ws w2 _ hw2, dropWS_cons_not_ws c _ hc]
  simp [h2]

theorem tailOk_iff (cs : List Char) :
    tailOk cs = true ↔ cs = [] ∨ cs.head? = some ' ' := by
  cases cs with
  | nil => simp [tailOk]
  | cons c t => simp [tailOk]

/-! ### Whole-line shape of the literal cut markers -/

theorem matchLit_shape (lit : List Char) (hne : lit ≠ [])
    (hhead : isWS lit.headI = false) (line : String) :
    matchLit lit line.toList = true ↔ commentMarkerShape lit line := by
  cases lit with
  | nil => exact absurd rfl hne
  | cons c t =>
    have hc : isWS c = false := hhead
    constructor
    · intro h
      obtain ⟨r, har, htake, hdropws⟩ := (matchLit_iff _ _).mp h
      obtain ⟨w1, rest, hw1, hcs, hr⟩ := afterSlashes_inv _ _ har
      refine ⟨w1, rest.takeWhile isWS, r.drop (c :: t).length, hw1,
        takeWhile_isAllWS rest, hdropws, ?_⟩
      rw [hcs]
      have hr2 : r = (c :: t) ++ r.drop (c :: t).length := by
        conv_lhs => rw [← List.take_append_drop (c :: t).length r]
        rw [htake]
      have hre : rest = rest.takeWhile isWS ++
          ((c :: t) ++ r.drop (c :: t).length) := by
        conv_lhs => rw [← List.takeWhile_append_dropWhile isWS rest]
        rw [show rest.dropWhile isWS = dropWS rest from rfl, ← hr, ← hr2]
      conv_lhs => rw [hre]
      simp [List.append_assoc]
    · rintro ⟨w1, w2, w3, hw1, hw2, hw3, hline⟩
      apply (matchLit_iff _ _).mpr
      refine ⟨(c :: t) ++ w3, ?_, ?_, ?_⟩
      · rw [hline]
        have := afterSlashes_build w1 w2 w3 hw1 hw2 c t hc
        rw [this]
        simp
      · have : (c :: t) ++ w3 = (c :: t) ++ w3 := rfl
        rw [show ((c :: t) ++ w3).take (c :: t).length = c :: t from
          List.take_left ..]
      · rw [show ((c :: t) ++ w3).drop (c :: t).length = w3 from
          List.drop_left ..]
        exact hw3

theorem afterSlashes_build2 (w1 w2 : List Char) (hw1 : isAllWS w1 = true)
    (hw2 : isAllWS w2 = true) (c : Char) (t : List Char)
    (hc : isWS c = false) :
    afterSlashes (w1 ++ ['/', '/'] ++ w2 ++ (c :: t)) = some (c :: t) := by
  have h := afterSlashes_build w1 w2 [] hw1 hw2 c t hc
  simpa using h

theorem dropWhile_caret_append (sel tl : List Char)
    (hsel : sel.all (fun c => c == '^') = true) :
    (sel ++ tl).dropWhile (fun c => c == '^') =
      tl.dropWhile (fun c => c == '^') := by
  induction sel with
  | nil => rfl
  | cons c s ih =>
    rw [List.all_cons, Bool.and_eq_true] at hsel
    rw [List.cons_append, List.dropWhile_cons, if_pos hsel.1]
    exact ih hsel.2

theorem dropWhile_caret_tail (tl : List Char)
    (htl : tl = [] ∨ tl.head? = some ' ') :
    tl.dropWhile (fun c => c == '^') = tl := by
  rcases htl with h | h
  · rw [h]
    rfl
  · cases tl with
    | nil => rfl
    | cons c t =>
      simp at h
      rw [h, List.dropWhile_cons, if_neg (by decide)]

/-! ### Whole-line shape of the query and completion marker -/

theorem reAnnonateMarkers_iff (line : String) :
    reAnnonateMarkers line = true ↔ annotateShape line := by
  constructor
  · intro h
    unfold reAnnonateMarkers at h
    split at h
    · rename_i t heq
      obtain ⟨w1, rest, hw1, hcs, hr⟩ := afterSlashes_inv _ _ heq
      have hre : rest = rest.takeWhile isWS ++ ('^' :: t) := by
        conv_lhs => rw [← List.takeWhile_append_dropWhile isWS rest]
        rw [show rest.dropWhile isWS = dropWS rest from rfl, ← hr]
      split at h
      · rename_i t2
        refine ⟨w1, rest.takeWhile isWS, ['?'], t2, hw1,
          takeWhile_isAllWS rest, Or.inl rfl, (tailOk_iff t2).mp h, ?_⟩
        rw [hcs]
        conv_lhs => rw [hre]
        simp [List.append_assoc]
      · rename_i t2
        refine ⟨w1, rest.takeWhile isWS, ['|'], t2, hw1,
          takeWhile_isAllWS rest, Or.inr (Or.inl rfl),
          (tailOk_iff t2).mp h, ?_⟩
        rw [hcs]
        conv_lhs => rw [hre]
        simp [List.append_assoc]
      · rename_i t3
        have hselne : (('^' :: t3).takeWhile (fun c => c == '^')) ≠ [] := by
          rw [List.takeWhile_cons, if_pos (by decide)]
          simp
        have hselall : ((('^' :: t3)).takeWhile (fun c => c == '^')).all
            (fun c => c == '^') = true := by
          rw [List.all_eq_true]
          intro x hx
          have hpx := List.mem_takeWhile_imp hx
          simpa using hpx
        refine ⟨w1, rest.takeWhile isWS,
          ('^' :: t3).takeWhile (fun c => c == '^'),
          ('^' :: t3).dropWhile (fun c => c == '^'), hw1,
          takeWhile_isAllWS rest, Or.inr (Or.inr ⟨hselne, hselall⟩),
          (tailOk_iff _).mp h, ?_⟩
        rw [hcs]
        conv_lhs => rw [hre]
        rw [List.takeWhile_append_dropWhile]
        simp [List.append_assoc]
      · exact absurd h (by simp)
    · exact absurd h (by simp)
  · rintro ⟨w1, w2, sel, tl, hw1, hw2, hsel, htl, hline⟩
    unfold reAnnonateMarkers
    rcases hsel with h1 | h1 | ⟨hne, hall⟩
    · subst h1
      have haf : afterSlashes line.toList = some ('^' :: ('?' :: tl)) := by
        rw [hline]
        exact afterSlashes_build2 w1 w2 hw1 hw2 '^' ('?' :: tl) (by decide)
      rw [haf]
      exact (tailOk_iff tl).mpr htl
    · subst h1
      have haf : afterSlashes line.toList = some ('^' :: ('|' :: tl)) := by
        rw [hline]
        exact afterSlashes_build2 w1 w2 hw1 hw2 '^' ('|' :: tl) (by decide)
      rw [haf]
      exact (tailOk_iff tl).mpr htl
    · cases sel with
      | nil => exact absurd rfl hne
      | cons c s =>
        rw [List.all_cons, Bool.and_eq_true] at hall
        have hc : c = '^' := by simpa using hall.1
        subst hc
        have haf : afterSlashes line.toList =
            some ('^' :: (('^' :: s) ++ tl)) := by
          rw [hline]
          exact afterSlashes_build2 w1 w2 hw1 hw2 '^' (('^' :: s) ++ tl)
            (by decide)
        rw [haf]
        show tailOk ((('^' :: s) ++ tl).dropWhile (fun c => c == '^')) = true
        rw [dropWhile_caret_append ('^' :: s) tl (by
          rw [List.all_cons]
          simp [hall.2]), dropWhile_caret_tail tl htl]
        exact (tailOk_iff tl).mpr htl

/-! ### Whole-line shape of the compiler-flag line -/

theorem isTSFlagLine_iff (line : String) :
    isTSFlagLine line = true ↔ tsFlagShape line := by
  constructor
  · intro h
    have h4 : line.toList.take 4 = "// @".toList := by
      rw [isTSFlagLine] at h
      exact beq_iff_eq.mp h
    refine ⟨line.toList.drop 4, ?_⟩
    conv_lhs => rw [← List.take_append_drop 4 line.toList]
    rw [h4]
    rfl
  · rintro ⟨rest, hrest⟩
    rw [isTSFlagLine, hrest]
    rfl

/-! ### Marker kind exclusivity -/

theorem matchLit_head (lit cs : List Char) (c : Char) (rest : List Char)
    (haf : afterSlashes cs = some (c :: rest)) (h : matchLit lit cs = true)
    (hne : lit ≠ []) : lit.head? = some c := by
  obtain ⟨r, har, htake, -⟩ := (matchLit_iff lit cs).mp h
  rw [haf] at har
  injection har with hr
  cases lit with
  | nil => exact absurd rfl hne
  | cons d t2 =>
    rw [← hr, List.length_cons, List.take_succ_cons] at htake
    injection htake with h1 _
    rw [List.head?_cons, h1]

theorem tsFlag_afterSlashes (line : String) (h : isTSFlagLine line = true) :
    ∃ rest, afterSlashes line.toList = some ('@' :: rest) := by
  obtain ⟨rest, hrest⟩ := (isTSFlagLine_iff line).mp h
  refine ⟨rest, ?_⟩
  rw [hrest]
  rfl

theorem annot_afterSlashes (line : String) (h : reAnnonateMarkers line = true) :
    ∃ t, afterSlashes line.toList = some ('^' :: t) := by
  unfold reAnnonateMarkers at h
  split at h
  · rename_i t heq
    exact ⟨t, heq⟩
  · exact absurd h (by simp)

theorem tsFlag_excl (line : String) (h : isTSFlagLine line = true) :
    reAnnonateMarkers line = false ∧ reCutBefore line = false ∧
      reCutAfter line = false ∧ reCutStart line = false ∧
      reCutEnd line = false := by
  obtain ⟨rest, haf⟩ := tsFlag_afterSlashes line h
  have hcut : ∀ lit : List Char, lit ≠ [] → lit.head? ≠ some '@' →
      matchLit lit line.toList = false := by
    intro lit hne hhd
    cases hm : matchLit lit line.toList with
    | false => rfl
    | true => exact absurd (matchLit_head lit line.toList '@' rest haf hm hne) hhd
  refine ⟨?_, ?_, ?_, ?_, ?_⟩
  · cases hA : reAnnonateMarkers line with
    | false => rfl
    | true =>
      obtain ⟨t, haf2⟩ := annot_afterSlashes line hA
      rw [haf] at haf2
      simp at haf2
  · rw [reCutBefore, hcut "---cut-before---".toList (by decide) (by decide),
      hcut "---cut---".toList (by decide) (by decide)]
    rfl
  · rw [reCutAfter]
    exact hcut _ (by decide) (by decide)
  · rw [reCutStart]
    exact hcut _ (by decide) (by decide)
  · rw [reCutEnd]
    exact hcut _ (by decide) (by decide)

theorem annot_excl (line : String) (h : reAnnonateMarkers line = true) :
    reCutBefore line = false ∧ reCutAfter line = false ∧
      reCutStart line = false ∧ reCutEnd line = false := by
  obtain ⟨t, haf⟩ := annot_afterSlashes line h
  have hcut : ∀ lit : List Char, lit ≠ [] → lit.head? ≠ some '^' →
      matchLit lit line.toList = false := by
    intro lit hne hhd
    cases hm : matchLit lit line.toList with
    | false => rfl
    | true => exact absurd (matchLit_head lit line.toList '^' t haf hm hne) hhd
  refine ⟨?_, ?_, ?_, ?_⟩
  · rw [reCutBefore, hcut "---cut-before---".toList (by decide) (by decide),
      hcut "---cut---".toList (by decide) (by decide)]
    rfl
  · rw [reCutAfter]
    exact hcut _ (by decide) (by decide)
  · rw [reCutStart]
    exact hcut _ (by decide) (by decide)
  · rw [reCutEnd]
    exact hcut _ (by decide) (by decide)

theorem cutAfter_excl (line : String) (h : reCutAfter line = true) :
    reCutStart line = false ∧ reCutEnd line = false := by
  rw [reCutAfter] at h
  constructor
  · cases hS : reCutStart line with
    | false => rfl
    | true =>
      rw [reCutStart] at hS
      exact absurd (matchLit_disjoint "---cut-start---".toList
        "---cut-after---".toList _ (by decide) (by decide) hS h) id
  · cases hE : reCutEnd line with
    | false => rfl
    | true =>
      rw [reCutEnd] at hE
      exact absurd (matchLit_disjoint "---cut-end---".toList
        "---cut-after---".toList _ (by decide) (by decide) hE h) id

theorem cutStart_excl (line : String) (h : reCutStart line = true) :
    reCutEnd line = false := by
  rw [reCutStart] at h
  cases hE : reCutEnd line with
  | false => rfl
  | true =>
    rw [reCutEnd] at hE
    exact absurd (matchLit_disjoint "---cut-end---".toList
      "---cut-start---".toList _ (by decide) (by decide) hE h) id

theorem markerKindCount_le_one (line : String) : markerKindCount line ≤ 1 := by
  rw [markerKindCount]
  cases h1 : isTSFlagLine line with
  | true =>
    obtain ⟨hA, hB, hC, hD, hE⟩ := tsFlag_excl line h1
    simp [hA, hB, hC, hD, hE]
  | false =>
    cases h2 : reAnnonateMarkers line with
    | true =>
      obtain ⟨hB, hC, hD, hE⟩ := annot_excl line h2
      simp [h1, hB, hC, hD, hE]
    | false =>
      cases h3 : reCutBefore line with
      | true =>
        obtain ⟨hC, hD, hE⟩ := cutBefore_excl line h3
        simp [h1, h2, hC, hD, hE]
      | false =>
        cases h4 : reCutAfter line with
        | true =>
          obtain ⟨hD, hE⟩ := cutAfter_excl line h4
          simp [h1, h2, h3, hD, hE]
        | false =>
          cases h5 : reCutStart line with
          | true =>
            have hE := cutStart_excl line h5
            simp [h1, h2, h3, h4, hE]
          | false =>
            cases h6 : reCutEnd line with
            | true => simp [h1, h2, h3, h4, h5, h6]
            | false => simp [h1, h2, h3, h4, h5, h6]

/-! ### Claim C8 -/

/-- C8: a line is claimed by at most one of the six marker kinds, and
each classification is a whole-line match: a classified line consists
of nothing but the marker itself — surrounding whitespace around the
comment markers, the flag comment from column zero, the structured
selector-and-tail of the query or completion marker — never a marker
substring inside other content. -/
theorem C8_marker_scanner_whole_line (line : String) :
    markerKindCount line ≤ 1 ∧
      (isTSFlagLine line = true ↔ tsFlagShape line) ∧
      (reAnnonateMarkers line = true ↔ annotateShape line) ∧
      (reCutBefore line = true ↔
        (commentMarkerShape "---cut-before---".toList line ∨
          commentMarkerShape "---cut---".toList line)) ∧
      (reCutAfter line = true ↔
        commentMarkerShape "---cut-after---".toList line) ∧
      (reCutStart line = true ↔
        commentMarkerShape "---cut-start---".toList line) ∧
      (reCutEnd line = true ↔
        commentMarkerShape "---cut-end---".toList line) := by
  refine ⟨markerKindCount_le_one line, isTSFlagLine_iff line,
    reAnnonateMarkers_iff line, ?_, ?_, ?_, ?_⟩
  · rw [reCutBefore, Bool.or_eq_true]
    exact or_congr (matchLit_shape _ (by decide) (by decide) line)
      (matchLit_shape _ (by decide) (by decide) line)
  · rw [reCutAfter]
    exact matchLit_shape _ (by decide) (by decide) line
  · rw [reCutStart]
    exact matchLit_shape _ (by decide) (by decide) line
  · rw [reCutEnd]
    exact matchLit_shape _ (by decide) (by decide) line

/-- Witness for C8: the dashed cut marker line is classified by exactly
one kind. -/
theorem C8_marker_witness : markerKindCount "// ---cut---" ≤ 1 :=
  (C8_marker_scanner_whole_line "// ---cut---").1

end ECTwoslash
